import Mathlib

/-!
The 2d-tree repository: geometric primitives, the ordered-set point set and the kd-tree
point set.

A shallow embedding of `src/src/2dtree.cpp` and `src/include/primitives.h`.

Numbers. A `double` is modelled by `Coord`: minus infinity, a finite value, or plus
infinity. Finite values are rationals (every finite `double` is a dyadic rational), so all
comparisons of the source are exact in the model. NaN is left out, and with it the one way the
source can produce it from such values, the difference of two equal infinities.

Distances. Every distance the source computes is `0`, `std::abs (a - b)`,
`std::hypot (a, b)` or `INF`, and the source only compares them and takes their minimum.
`Dist` keeps such a value exactly by its square: `Dist.root s` is the real number `√s`.

Arithmetic. The difference of two doubles and `std::hypot` round and overflow. `Arith` holds
these two operations, and the methods that compute distances are given over an arithmetic:
`Point.distance_with`, `Rect.distance_with`, `funct_nearest_with`, `nearest_with`.
`Arith.binary64` is the arithmetic of the source, IEEE 754 binary64: round to nearest, ties
to even, subnormal numbers, overflow to infinity, with `std::hypot` correctly rounded.
`Arith.exact` is arithmetic over the reals. `Point.distance`, `Rect.distance`,
`funct_nearest` and `nearest` without a suffix are these methods over `Arith.exact`: they
are the yardstick of statements over exact reals, and they agree with the source wherever
rounding changes no comparison. The statements on `nearest (p)` are over `Arith.binary64`.

Pointers. `std::shared_ptr<Node>` is the inductive type `Node` with `Node.null` for `nullptr`.
`std::set<Point>` is a strictly ascending list with ordered insertion.
`size_t` counters are natural numbers (a counter grows by one per `put`).
-/

namespace TwoDTree

/-! ## Coordinates -/

/-- A `double` other than NaN. -/
inductive Coord where
  | negInf : Coord
  | fin (q : ℚ) : Coord
  | posInf : Coord
  deriving DecidableEq

namespace Coord

/-- The comparison `a <= b` of two doubles, as a boolean. -/
def leb : Coord → Coord → Bool
  | negInf, _ => true
  | fin _, negInf => false
  | fin a, fin b => decide (a ≤ b)
  | fin _, posInf => true
  | posInf, posInf => true
  | posInf, _ => false

/-- The comparison `a <= b` of two doubles. -/
def le : Coord → Coord → Prop
  | negInf, _ => True
  | fin _, negInf => False
  | fin a, fin b => a ≤ b
  | fin _, posInf => True
  | posInf, posInf => True
  | posInf, _ => False

theorem coord_le_iff_leb (a b : Coord) : le a b ↔ leb a b = true := by
  cases a <;> cases b <;> simp [le, leb]

theorem coord_le_refl (a : Coord) : le a a := by
  cases a <;> simp [le, leb]

theorem coord_le_trans (a b c : Coord) (h₁ : le a b) (h₂ : le b c) : le a c := by
  cases a <;> cases b <;> cases c <;> simp_all [le, leb]
  exact h₁.trans h₂

theorem coord_le_antisymm (a b : Coord) (h₁ : le a b) (h₂ : le b a) : a = b := by
  cases a <;> cases b <;> simp_all [le, leb]
  exact h₁.antisymm h₂

theorem coord_le_total (a b : Coord) : le a b ∨ le b a := by
  cases a <;> cases b <;> simp [le, leb]
  exact le_total _ _

instance : LinearOrder Coord where
  le a b := le a b
  le_refl := coord_le_refl
  le_trans := coord_le_trans
  le_antisymm := coord_le_antisymm
  le_total := coord_le_total
  decidableLE := fun a b => decidable_of_iff _ (coord_le_iff_leb a b).symm
  decidableEq := inferInstance

/-- The exact difference `a - b` of two doubles, before rounding (`Binary64.sub` is the
rounded difference). The difference of two equal infinities is NaN in the source and outside
this model; it is given the value of its left operand here, and no theorem below depends on
it. -/
def sub : Coord → Coord → Coord
  | fin a, fin b => fin (a - b)
  | fin _, negInf => posInf
  | fin _, posInf => negInf
  | negInf, _ => negInf
  | posInf, _ => posInf

instance : Sub Coord := ⟨sub⟩

end Coord

/-! ## Distances -/

/-- A distance: `root s` is the real number `√s` (with `0 ≤ s`), `inf` is `INF`. -/
inductive Dist where
  | root (sq : ℚ) : Dist
  | inf : Dist
  deriving DecidableEq

namespace Dist

/-- The comparison `a <= b` of two distances, as a boolean: square roots compare as their
squares. -/
def leb : Dist → Dist → Bool
  | root a, root b => decide (a ≤ b)
  | _, inf => true
  | inf, root _ => false

/-- The comparison `a <= b` of two distances. -/
def le : Dist → Dist → Prop
  | root a, root b => a ≤ b
  | _, inf => True
  | inf, root _ => False

theorem dist_le_iff_leb (a b : Dist) : le a b ↔ leb a b = true := by
  cases a <;> cases b <;> simp [le, leb]

theorem dist_le_refl (a : Dist) : le a a := by
  cases a <;> simp [le, leb]

theorem dist_le_trans (a b c : Dist) (h₁ : le a b) (h₂ : le b c) : le a c := by
  cases a <;> cases b <;> cases c <;> simp_all [le, leb]
  exact h₁.trans h₂

theorem dist_le_antisymm (a b : Dist) (h₁ : le a b) (h₂ : le b a) : a = b := by
  cases a <;> cases b <;> simp_all [le, leb]
  exact h₁.antisymm h₂

theorem dist_le_total (a b : Dist) : le a b ∨ le b a := by
  cases a <;> cases b <;> simp [le, leb]
  exact le_total _ _

instance : LinearOrder Dist where
  le a b := le a b
  le_refl := dist_le_refl
  le_trans := dist_le_trans
  le_antisymm := dist_le_antisymm
  le_total := dist_le_total
  decidableLE := fun a b => decidable_of_iff _ (dist_le_iff_leb a b).symm
  decidableEq := inferInstance

/-- The distance `√(a² + b²)` made of two distances `a` and `b`. -/
def padd : Dist → Dist → Dist
  | root s, root t => root (s + t)
  | _, _ => inf

end Dist

/-- The absolute value `std::abs (a)` of a double, as a distance. -/
def abs : Coord → Dist
  | Coord.fin a => Dist.root (a * a)
  | _ => Dist.inf

/-- The exact value of `std::hypot (a, b)`, before rounding (`Binary64.hypot` is the rounded
value): the square root of `a * a + b * b`, infinite as soon as one argument is. -/
def hypot : Coord → Coord → Dist
  | Coord.fin a, Coord.fin b => Dist.root (a * a + b * b)
  | _, _ => Dist.inf

/-- The constant `INF` of the source. -/
def INF : Coord := Coord.posInf

/-! ## Double arithmetic -/

namespace Coord

/-- The negation `-a` of a double. -/
def neg : Coord → Coord
  | negInf => posInf
  | fin a => fin (-a)
  | posInf => negInf

end Coord

/-! IEEE 754 binary64, the format of `double`: a finite double is `± m * 2 ^ (e - 52)` with
an integer mantissa `m ≤ 2 ^ 53 - 1` and an exponent `-1022 ≤ e ≤ 1023`, where
`2 ^ 52 ≤ m` unless `e = -1022` (the subnormal numbers). An operation returns the double
nearest to its exact result, the one with an even mantissa at a tie, and an infinity when
that rounding reaches `2 ^ 1024`. -/

namespace Binary64

/-- The number `⌊log₂ n⌋` for `1 ≤ n` (0 for `n = 0`), by repeated halving; `fuel` bounds the
number of halvings and `n` itself is always enough. -/
def log2_aux : ℕ → ℕ → ℕ
  | 0, _ => 0
  | fuel + 1, n => if n ≤ 1 then 0 else log2_aux fuel (n / 2) + 1

/-- The number `⌊log₂ n⌋` for `1 ≤ n`. -/
def nat_log2 (n : ℕ) : ℕ := log2_aux n n

/-- The number `⌊√n⌋`, one binary digit at a time: `⌊√n⌋` is `2 * ⌊√(n / 4)⌋` or one more;
`fuel` bounds the depth and `n` itself is always enough. -/
def isqrt_aux : ℕ → ℕ → ℕ
  | 0, _ => 0
  | fuel + 1, n =>
    if n = 0 then 0
    else
      let r := 2 * isqrt_aux fuel (n / 4)
      if (r + 1) * (r + 1) ≤ n then r + 1 else r

/-- The number `⌊√n⌋`. -/
def isqrt (n : ℕ) : ℕ := isqrt_aux n n

/-- The number `⌊log₂ s⌋` for a positive rational `s`: the difference of the logarithms of
numerator and denominator, or one less. -/
def ilog2 (s : ℚ) : ℤ :=
  if (2 : ℚ) ^ ((nat_log2 s.num.natAbs : ℤ) - (nat_log2 s.den : ℤ)) ≤ s then
    (nat_log2 s.num.natAbs : ℤ) - (nat_log2 s.den : ℤ)
  else (nat_log2 s.num.natAbs : ℤ) - (nat_log2 s.den : ℤ) - 1

/-- The binary exponent of the doubles around `√s`, for `0 < s`: `⌊log₂ √s⌋`, and -1022 in
the subnormal range. -/
def exponent (s : ℚ) : ℤ := max (ilog2 s / 2) (-1022)

/-- The integer nearest to `√t` among `f` and `f + 1`, where `f = ⌊√t⌋`: `f` when `√t` is
below `f + 1/2`, `f + 1` when above, the even one at a tie. -/
def nearest_of (f : ℕ) (t : ℚ) : ℕ :=
  if 4 * t < (2 * f + 1) * (2 * f + 1) then f
  else if (2 * f + 1) * (2 * f + 1) < 4 * t then f + 1
  else if f % 2 = 0 then f else f + 1

/-- The integer nearest to `√t`, ties to even, for `0 ≤ t`. -/
def round_even_sqrt (t : ℚ) : ℕ := nearest_of (isqrt ⌊t⌋₊) t

/-- The spacing of the doubles around `√s`: `2 ^ (exponent - 52)`. -/
def ulp (s : ℚ) : ℚ := 2 ^ (exponent s - 52)

/-- The multiple of `ulp s` nearest to `√s`, ties to even, for `0 < s`. -/
def grid_value (s : ℚ) : ℚ := (round_even_sqrt (s / (ulp s * ulp s)) : ℚ) * ulp s

/-- The double nearest to `√s`, ties to even, and `+∞` from `2 ^ 1024` on: the value of a
correctly rounded square root of the exact number `s`. -/
def round_sqrt (s : ℚ) : Coord :=
  if s ≤ 0 then Coord.fin 0
  else if (2 : ℚ) ^ (1024 : ℤ) ≤ grid_value s then Coord.posInf
  else Coord.fin (grid_value s)

/-- The double nearest to the rational `x`, ties to even, and an infinity when that rounding
reaches `2 ^ 1024`: the rounded square root of `x * x`, with the sign of `x`. -/
def round (x : ℚ) : Coord :=
  if 0 ≤ x then round_sqrt (x * x) else (round_sqrt (x * x)).neg

/-- The difference `a - b` of two doubles as the source computes it: the exact difference,
rounded. An infinity minus a finite number is that infinity, a finite number minus an
infinity the opposite one; the difference of two equal infinities is NaN in the source and
outside this model, as in `Coord.sub`. -/
def sub : Coord → Coord → Coord
  | Coord.fin a, Coord.fin b => round (a - b)
  | Coord.fin _, Coord.negInf => Coord.posInf
  | Coord.fin _, Coord.posInf => Coord.negInf
  | Coord.negInf, _ => Coord.negInf
  | Coord.posInf, _ => Coord.posInf

/-- The value `std::hypot (a, b)` as the source computes it, taken correctly rounded: the
double nearest to the square root of `a * a + b * b`, infinite when that rounding overflows
and as soon as one argument is infinite. The result `d` is kept as the distance
`Dist.root (d * d)`. -/
def hypot : Coord → Coord → Dist
  | Coord.fin a, Coord.fin b =>
    match round_sqrt (a * a + b * b) with
    | Coord.fin d => Dist.root (d * d)
    | _ => Dist.inf
  | _, _ => Dist.inf

end Binary64

/-- The two operations of `Point::distance` and `Rect::distance` that round: the difference
`sub a b` of two doubles and the value `hypot a b` of `std::hypot`. -/
structure Arith where
  sub : Coord → Coord → Coord
  hypot : Coord → Coord → Dist

namespace Arith

/-- Arithmetic over the reals: no rounding, no overflow. -/
def exact : Arith := ⟨Coord.sub, TwoDTree.hypot⟩

/-- The arithmetic of the source: IEEE 754 binary64. -/
def binary64 : Arith := ⟨Binary64.sub, Binary64.hypot⟩

/-- What the pruning of `funct_nearest` needs of the arithmetic. On finite operands: a
difference of equal numbers is zero, a difference grows with its left operand, and swapping
the operands keeps its absolute value. The value of `hypot` is non-negative, grows with the
absolute values of its arguments, and on two differences is at least the absolute value of
each. An infinity minus a finite number is that infinity, and `hypot` is infinite as soon as
one argument is. -/
structure Sound (A : Arith) : Prop where
  sub_self : ∀ c : ℚ, A.sub (Coord.fin c) (Coord.fin c) = Coord.fin 0
  sub_mono : ∀ a a' c : ℚ, a ≤ a' →
    A.sub (Coord.fin a) (Coord.fin c) ≤ A.sub (Coord.fin a') (Coord.fin c)
  abs_sub_comm : ∀ a b : ℚ,
    abs (A.sub (Coord.fin a) (Coord.fin b)) = abs (A.sub (Coord.fin b) (Coord.fin a))
  zero_le_hypot : ∀ x y : Coord, Dist.root 0 ≤ A.hypot x y
  hypot_mono : ∀ x x' y y' : Coord, abs x ≤ abs x' → abs y ≤ abs y' →
    A.hypot x y ≤ A.hypot x' y'
  le_hypot_left : ∀ a b c d : ℚ, abs (A.sub (Coord.fin a) (Coord.fin b))
    ≤ A.hypot (A.sub (Coord.fin a) (Coord.fin b)) (A.sub (Coord.fin c) (Coord.fin d))
  le_hypot_right : ∀ a b c d : ℚ, abs (A.sub (Coord.fin c) (Coord.fin d))
    ≤ A.hypot (A.sub (Coord.fin a) (Coord.fin b)) (A.sub (Coord.fin c) (Coord.fin d))
  sub_negInf : ∀ a : ℚ, A.sub Coord.negInf (Coord.fin a) = Coord.negInf
  sub_posInf : ∀ a : ℚ, A.sub Coord.posInf (Coord.fin a) = Coord.posInf
  hypot_inf_left : ∀ x y : Coord, abs x = Dist.inf → A.hypot x y = Dist.inf
  hypot_inf_right : ∀ x y : Coord, abs y = Dist.inf → A.hypot x y = Dist.inf

end Arith

/-! ## Point -/

/-- The class `Point`: two coordinates. -/
structure Point where
  x : Coord
  y : Coord
  deriving DecidableEq

namespace Point

/-- The method `Point::distance` over exact arithmetic: the Euclidean distance. -/
def distance (self point : Point) : Dist :=
  hypot (self.x - point.x) (self.y - point.y)

/-- The method `Point::distance` over the arithmetic `A`. -/
def distance_with (A : Arith) (self point : Point) : Dist :=
  A.hypot (A.sub self.x point.x) (A.sub self.y point.y)

/-- The operator `Point::operator<`: by `x` first, then by `y`. -/
def lt (self point : Point) : Bool :=
  if self.x = point.x then decide (self.y < point.y) else decide (self.x < point.x)

/-- The operator `Point::operator==`. -/
def eq (self point : Point) : Bool :=
  if self.x = point.x then decide (self.y = point.y) else decide (self.x = point.x)

/-- The operator `Point::operator>`. -/
def gt (self point : Point) : Bool :=
  if self.x = point.x then decide (self.y > point.y) else decide (self.x > point.x)

/-- The operator `Point::operator<=`. -/
def le (self point : Point) : Bool := !(self.gt point)

/-- The operator `Point::operator>=`. -/
def ge (self point : Point) : Bool := !(self.lt point)

/-- The operator `Point::operator!=`. -/
def ne (self point : Point) : Bool := !(self.eq point)
/-- A point with two finite coordinates. -/
def ofRat (a b : ℚ) : Point := ⟨Coord.fin a, Coord.fin b⟩

end Point

/-! ## Rect -/

/-- The class `Rect`: two corner points. -/
structure Rect where
  left_bottom : Point
  right_top : Point
  deriving DecidableEq

namespace Rect

/-- The method `Rect::xmin`. -/
def xmin (self : Rect) : Coord := self.left_bottom.x
/-- The method `Rect::ymin`. -/
def ymin (self : Rect) : Coord := self.left_bottom.y
/-- The method `Rect::xmax`. -/
def xmax (self : Rect) : Coord := self.right_top.x
/-- The method `Rect::ymax`. -/
def ymax (self : Rect) : Coord := self.right_top.y

/-- The method `Rect::contains`. -/
def contains (self : Rect) (p : Point) : Bool :=
  (decide (self.xmin ≤ p.x) && decide (self.xmax ≥ p.x) &&
    decide (self.ymin ≤ p.y) && decide (self.ymax ≥ p.y))

/-- The method `Rect::distance` over the arithmetic `A`. -/
def distance_with (A : Arith) (self : Rect) (p : Point) : Dist :=
  if self.contains p then Dist.root 0
  else if (self.left_bottom.x ≤ p.x ∧ p.x ≤ self.right_top.x) then
    min (abs (A.sub self.left_bottom.y p.y)) (abs (A.sub self.right_top.y p.y))
  else if self.left_bottom.y ≤ p.y ∧ self.right_top.y ≥ p.y then
    min (abs (A.sub self.left_bottom.x p.x)) (abs (A.sub self.right_top.x p.x))
  else
    min (min (min (p.distance_with A self.left_bottom) (p.distance_with A self.right_top))
      (p.distance_with A ⟨self.left_bottom.x, self.right_top.y⟩))
      (p.distance_with A ⟨self.right_top.x, self.left_bottom.y⟩)

/-- The method `Rect::distance` over exact arithmetic. -/
def distance (self : Rect) (p : Point) : Dist :=
  if self.contains p then Dist.root 0
  else if (self.left_bottom.x ≤ p.x ∧ p.x ≤ self.right_top.x) then
    min (abs (self.left_bottom.y - p.y)) (abs (self.right_top.y - p.y))
  else if self.left_bottom.y ≤ p.y ∧ self.right_top.y ≥ p.y then
    min (abs (self.left_bottom.x - p.x)) (abs (self.right_top.x - p.x))
  else
    min (min (min (p.distance self.left_bottom) (p.distance self.right_top))
      (p.distance ⟨self.left_bottom.x, self.right_top.y⟩))
      (p.distance ⟨self.right_top.x, self.left_bottom.y⟩)

/-- The method `Rect::intersects`; the first test names the corner
`(rect.xmin, rect.ymin)` twice, as the source does. -/
def intersects (self rect : Rect) : Bool :=
  if self.contains ⟨rect.xmin, rect.ymin⟩ || self.contains ⟨rect.xmin, rect.ymax⟩ ||
      self.contains ⟨rect.xmax, rect.ymin⟩ || self.contains ⟨rect.xmin, rect.ymin⟩ then
    true
  else if rect.contains self.left_bottom || rect.contains self.right_top ||
      rect.contains ⟨self.left_bottom.x, self.right_top.y⟩ ||
      rect.contains ⟨self.right_top.x, self.left_bottom.y⟩ then
    true
  else
    false

/-- The four corners of a rectangle. -/
def corners (self : Rect) : List Point :=
  [⟨self.xmin, self.ymin⟩, ⟨self.xmin, self.ymax⟩, ⟨self.xmax, self.ymin⟩,
    ⟨self.xmax, self.ymax⟩]
/-- The rectangle `Rect(Point(-INF, -INF), Point(INF, INF))`: the whole plane. -/
def plane : Rect := ⟨⟨Coord.negInf, Coord.negInf⟩, ⟨INF, INF⟩⟩

end Rect

/-- The gap of the claimed distance formula on one axis: `max (lo - v, 0, v - hi)`. -/
def gap (lo hi v : Coord) : Coord := max (lo - v) (max (Coord.fin 0) (v - hi))

namespace Rect

/-- The distance from `p` to the rectangle as the specification states it:
`sqrt (dx^2 + dy^2)` with `dx = max (xmin - p.x, 0, p.x - xmax)` and
`dy = max (ymin - p.y, 0, p.y - ymax)`. -/
def distance_formula (self : Rect) (p : Point) : Dist :=
  hypot (gap self.xmin self.xmax p.x) (gap self.ymin self.ymax p.y)

end Rect

/-! ## The ordered container `std::set<Point>` -/

/-- The call `set.insert (p)` on a `std::set<Point>`, kept as the ascending list of its
elements: `p` goes in front of the first element greater than it, and is dropped when an
equivalent element (neither less than the other) is there already. -/
def set_insert (p : Point) : List Point → List Point
  | [] => [p]
  | q :: qs =>
    if p.lt q then p :: q :: qs
    else if q.lt p then q :: set_insert p qs
    else q :: qs

/-- The test `set.find (p) != set.end ()` on a `std::set<Point>`: some element is equivalent
to `p`. -/
def set_find (p : Point) (set : List Point) : Bool :=
  set.any fun q => !p.lt q && !q.lt p

/-! ## The ordered-set backend -/

namespace rbtree

/-- The class `rbtree::PointSet`: its member `set_rbtree`, a `std::set<Point>`. -/
structure PointSet where
  set_rbtree : List Point
  deriving DecidableEq

/-- The method `rbtree::PointSet::put`. -/
def PointSet.put (self : PointSet) (point : Point) : PointSet :=
  ⟨set_insert point self.set_rbtree⟩

/-- The `for` loop of `rbtree::PointSet::nearest (p)`, over the arithmetic `A`, over the
elements of the set in ascending order: an element at most as far as `near_distance`
replaces `near_point`. -/
def nearest_loop_with (A : Arith) (p : Point) : List Point → Dist × Point → Dist × Point
  | [], best => best
  | item :: rest, (near_distance, near_point) =>
    if near_distance ≥ p.distance_with A item then
      nearest_loop_with A p rest (p.distance_with A item, item)
    else nearest_loop_with A p rest (near_distance, near_point)

/-- The method `rbtree::PointSet::nearest (p)` over the arithmetic `A`. The source starts
from `*set_rbtree.begin ()`, which is undefined on an empty set: the model has no result
there (`none`). On a non-empty set the returned optional is engaged. -/
def PointSet.nearest_with (A : Arith) (self : PointSet) (p : Point) : Option Point :=
  match self.set_rbtree with
  | [] => none
  | near_point :: rest =>
    some (nearest_loop_with A p (near_point :: rest) (p.distance_with A near_point, near_point)).2

/-- The set obtained from the empty set by one `put` per point of `ps`, in order. -/
def fromList (ps : List Point) : PointSet :=
  ps.foldl PointSet.put ⟨[]⟩

end rbtree

/-! ## The kd-tree -/

namespace kdtree

/-- The type `std::shared_ptr<Node>`: `null`, or a node with its `value`, `left`, `right`,
`size` and `rate` fields. -/
inductive Node where
  | null : Node
  | mk (value : Point) (left right : Node) (size rate : Nat) : Node
  deriving DecidableEq

/-- The constructor `Node (_value, _rate)`: no children, `size` 1. -/
def Node.new (value : Point) (rate : Nat) : Node := Node.mk value Node.null Node.null 1 rate

/-- The class `kdtree::PointSet`: its `Root` pointer. -/
structure PointSet where
  Root : Node
  deriving DecidableEq

/-- The test of `put` and `contains` that sends a point to the right of a node. -/
def goes_right (rate : Nat) (value p : Point) : Bool :=
  (rate == 0 && decide (p.x ≥ value.x)) || (rate == 1 && decide (p.y ≥ value.y))

/-- The `while (true)` loop of `PointSet::put` together with `funct_for_put`, started at
`currentNode`. On `nullptr` (an empty child slot, reached from a node of rate
`prev_rate`) `funct_for_put` stores a new node of rate `(prev_rate + 1) % 2` and the loop
ends; on a node holding `p` the loop ends; otherwise the node's `size` grows by one and the
loop moves to the right or left child slot. -/
def put_loop (p : Point) (prev_rate : Nat) : Node → Node
  | Node.null => Node.new p ((prev_rate + 1) % 2)
  | Node.mk value left right size rate =>
    if value.eq p then Node.mk value left right size rate
    else if goes_right rate value p then
      Node.mk value left (put_loop p rate right) (size + 1) rate
    else
      Node.mk value (put_loop p rate left) right (size + 1) rate

/-- The method `PointSet::empty`. -/
def PointSet.empty (self : PointSet) : Bool :=
  match self.Root with
  | Node.null => true
  | _ => false

/-- The method `PointSet::put`: an empty set gets a root of rate 0, otherwise the loop runs
from the root (a node, so the rate given for an empty slot is not read). -/
def PointSet.put (self : PointSet) (p : Point) : PointSet :=
  match self.Root with
  | Node.null => ⟨Node.new p 0⟩
  | Root => ⟨put_loop p 0 Root⟩

/-- The method `PointSet::size`. -/
def PointSet.size (self : PointSet) : Nat :=
  match self.Root with
  | Node.null => 0
  | Node.mk _ _ _ size _ => size

/-- The `while (true)` loop of `PointSet::contains`, started at `currentNode`; a missing
child ends it with `false`. -/
def contains_loop (p : Point) : Node → Bool
  | Node.null => false
  | Node.mk value left right _ rate =>
    if value.eq p then true
    else if goes_right rate value p then contains_loop p right
    else contains_loop p left

/-- The method `PointSet::contains`. -/
def PointSet.contains (self : PointSet) (p : Point) : Bool :=
  if self.empty then false else contains_loop p self.Root

/-- The rectangle `funct` and `funct_nearest` pass to the left child. -/
def left_rect (rect_of_tree : Rect) (value : Point) (rate : Nat) : Rect :=
  ⟨⟨rect_of_tree.xmin, rect_of_tree.ymin⟩,
    ⟨if rate = 0 then value.x else rect_of_tree.xmax,
     if rate = 1 then value.y else rect_of_tree.ymax⟩⟩

/-- The rectangle `funct` and `funct_nearest` pass to the right child. -/
def right_rect (rect_of_tree : Rect) (value : Point) (rate : Nat) : Rect :=
  ⟨⟨if rate = 0 then value.x else rect_of_tree.xmin,
     if rate = 1 then value.y else rect_of_tree.ymin⟩,
    ⟨rect_of_tree.xmax, rect_of_tree.ymax⟩⟩

/-- The method `PointSet::funct`: the `std::set` it fills is passed in and returned. -/
def funct (set : List Point) (r rect_of_tree : Rect) : Node → List Point
  | Node.null => set
  | Node.mk value left right _ rate =>
    if !r.intersects rect_of_tree then set
    else
      let set₁ := if r.contains value then set_insert value set else set
      let set₂ := funct set₁ r (left_rect rect_of_tree value rate) left
      funct set₂ r (right_rect rect_of_tree value rate) right

/-- The `while` loop of `PointSet::print_iterator`: each further element of the set becomes
the `left` child of the node before it, with the other rate. -/
def print_iterator_loop (prev_rate : Nat) : List Point → Node
  | [] => Node.null
  | p :: rest =>
    Node.mk p (print_iterator_loop ((prev_rate + 1) % 2) rest) Node.null 1 ((prev_rate + 1) % 2)

/-- The method `PointSet::print_iterator`: the elements of a set chained through `left`
pointers from a first node of rate 0; the result is that first node. The source reads
`*set.begin ()` without a test; both callers pass a non-empty set, and the empty list is
given `null` here. -/
def print_iterator : List Point → Node
  | [] => Node.null
  | p :: rest => Node.mk p (print_iterator_loop 0 rest) Node.null 1 0

/-- The points an iterator pair `{first, {}}` yields: `PointSet::iterator` starts at the
node, `operator++` moves to the left child when there is one, else to the right child, else
back up to the nearest ancestor with an unvisited right child, and stops at `nullptr`. -/
def iterate : Node → List Point
  | Node.null => []
  | Node.mk value left right _ _ => value :: (iterate left ++ iterate right)

/-- The method `PointSet::range`, as the sequence of points its iterator pair yields. -/
def PointSet.range (self : PointSet) (r : Rect) : List Point :=
  let set := funct [] r Rect.plane self.Root
  if set.isEmpty then [] else iterate (print_iterator set)

/-- The method `PointSet::funct_nearest` over the arithmetic `A`: `min` and `min_point` are
passed in and returned. -/
def funct_nearest_with (A : Arith) (r : Rect) (p : Point) (set_point : List Point) :
    Node → Dist × Point → Dist × Point
  | Node.null, best => best
  | Node.mk value left right _ rate, (min, min_point) =>
    if r.distance_with A p ≥ min then (min, min_point)
    else
      let best₁ :=
        if !set_find value set_point && decide (value.distance_with A p < min) then
          (value.distance_with A p, value)
        else (min, min_point)
      let best₂ := funct_nearest_with A (left_rect r value rate) p set_point left best₁
      funct_nearest_with A (right_rect r value rate) p set_point right best₂

/-- The method `PointSet::nearest (p)` over the arithmetic `A`; the source returns
`min_point` in every case. -/
def PointSet.nearest_with (A : Arith) (self : PointSet) (p : Point) : Option Point :=
  some (funct_nearest_with A Rect.plane p [] self.Root (Dist.inf, ⟨INF, INF⟩)).2

/-- The method `PointSet::funct_nearest` over exact arithmetic: `min` and `min_point` are
passed in and returned. -/
def funct_nearest (r : Rect) (p : Point) (set_point : List Point) :
    Node → Dist × Point → Dist × Point
  | Node.null, best => best
  | Node.mk value left right _ rate, (min, min_point) =>
    if r.distance p ≥ min then (min, min_point)
    else
      let best₁ :=
        if !set_find value set_point && decide (value.distance p < min) then
          (value.distance p, value)
        else (min, min_point)
      let best₂ := funct_nearest (left_rect r value rate) p set_point left best₁
      funct_nearest (right_rect r value rate) p set_point right best₂

/-- The method `PointSet::nearest (p)` over exact arithmetic; the source returns `min_point`
in every case. -/
def PointSet.nearest (self : PointSet) (p : Point) : Option Point :=
  some (funct_nearest Rect.plane p [] self.Root (Dist.inf, ⟨INF, INF⟩)).2

/-- The `for` loop of `PointSet::nearest (p, k)`: `k` rounds, each inserting its
`min_point` into `set_point`. -/
def nearest_k_loop (self : PointSet) (p : Point) : Nat → List Point → List Point
  | 0, set_point => set_point
  | k + 1, set_point =>
    nearest_k_loop self p k
      (set_insert (funct_nearest Rect.plane p set_point self.Root (Dist.inf, ⟨INF, INF⟩)).2
        set_point)

/-- The method `PointSet::nearest (p, k)`, as the sequence of points its iterator pair
yields. -/
def PointSet.nearest_k (self : PointSet) (p : Point) (k : Nat) : List Point :=
  let k := Nat.min self.size k
  if k = 0 then [] else iterate (print_iterator (nearest_k_loop self p k []))

/-- The set obtained from the empty set by one `put` per point of `ps`, in order. -/
def fromList (ps : List Point) : PointSet :=
  ps.foldl PointSet.put ⟨Node.null⟩

/-- Every point of the subtree lies in the rectangle `funct` and `funct_nearest` pass down
for it: the node's value lies in `r`, the left subtree in `left_rect`, the right subtree in
`right_rect`. -/
def Bounded (r : Rect) : Node → Prop
  | Node.null => True
  | Node.mk value left right _ rate =>
    r.contains value = true ∧ Bounded (left_rect r value rate) left ∧
      Bounded (right_rect r value rate) right

/-- The points stored in a set, in the order the iterators `begin ()` to `end ()` yield
them. -/
def PointSet.points (self : PointSet) : List Point := iterate self.Root

/-- A point with two finite coordinates. -/
def IsFinite (p : Point) : Prop := ∃ a b : ℚ, p = Point.ofRat a b

/-- The method `PointSet::funct` with the pruning test `r.intersects (rect_of_tree)` replaced
by an arbitrary test. -/
def funct_with (test : Rect → Rect → Bool) (set : List Point) (r rect_of_tree : Rect) :
    Node → List Point
  | Node.null => set
  | Node.mk value left right _ rate =>
    if !test r rect_of_tree then set
    else
      let set₁ := if r.contains value then set_insert value set else set
      let set₂ := funct_with test set₁ r (left_rect rect_of_tree value rate) left
      funct_with test set₂ r (right_rect rect_of_tree value rate) right

/-- The method `PointSet::range` over `funct_with`. -/
def PointSet.range_with (test : Rect → Rect → Bool) (self : PointSet) (r : Rect) :
    List Point :=
  let set := funct_with test [] r Rect.plane self.Root
  if set.isEmpty then [] else iterate (print_iterator set)

/-- Every node at depth `d`, counted from `d` at the node given, has rate `d % 2`. -/
def RatesFrom (d : Nat) : Node → Prop
  | Node.null => True
  | Node.mk _ left right _ rate =>
    rate = d % 2 ∧ RatesFrom (d + 1) left ∧ RatesFrom (d + 1) right

/-- A child slot is empty or holds a node whose rate is the opposite of `rate`. -/
def OppositeRate (rate : Nat) : Node → Prop
  | Node.null => True
  | Node.mk _ _ _ _ child_rate => child_rate = (rate + 1) % 2 ∧ child_rate ≠ rate

/-- Every node has rate 0 or 1 and each of its children has the opposite rate. -/
def Alternates : Node → Prop
  | Node.null => True
  | Node.mk _ left right _ rate =>
    (rate = 0 ∨ rate = 1) ∧ OppositeRate rate left ∧ OppositeRate rate right ∧
      Alternates left ∧ Alternates right

/-- The coordinate of `p` on the axis that a node of rate `rate` splits on. -/
def axis (rate : Nat) (p : Point) : Coord := if rate = 0 then p.x else p.y

/-- At every node, the points of the left subtree are strictly below the node's value on the
node's axis and the points of the right subtree are at or above it. -/
def Split : Node → Prop
  | Node.null => True
  | Node.mk value left right _ rate =>
    (∀ s ∈ iterate left, axis rate s < axis rate value) ∧
      (∀ s ∈ iterate right, axis rate value ≤ axis rate s) ∧ Split left ∧ Split right

/-- Every point stored in a subtree is contained in the rectangle `funct` and
`funct_nearest` pass down for that subtree. -/
def Enclosed (r : Rect) : Node → Prop
  | Node.null => True
  | Node.mk value left right size rate =>
    (∀ s ∈ iterate (Node.mk value left right size rate), r.contains s = true) ∧
      Enclosed (left_rect r value rate) left ∧ Enclosed (right_rect r value rate) right

/-- The cached `size` field of a node, 0 for `nullptr`. -/
def Node.cached : Node → Nat
  | Node.null => 0
  | Node.mk _ _ _ size _ => size

/-- The number of nodes of a subtree. -/
def Node.count : Node → Nat
  | Node.null => 0
  | Node.mk _ left right _ _ => 1 + left.count + right.count

/-- Every node's `size` is 1 plus the `size` of its present children, and is the number of
nodes of its subtree. -/
def SizesOk : Node → Prop
  | Node.null => True
  | Node.mk _ left right size _ =>
    size = 1 + left.cached + right.cached ∧ size = 1 + left.count + right.count ∧
      SizesOk left ∧ SizesOk right

/-- The update step of `funct_nearest`, over the arithmetic `A`, run over a list of points in
order, without any pruning: a point outside `set_point` and strictly closer than `min`
becomes `min_point`. -/
def scan_nearest_with (A : Arith) (p : Point) (set_point : List Point) :
    List Point → Dist × Point → Dist × Point
  | [], best => best
  | value :: rest, (min, min_point) =>
    scan_nearest_with A p set_point rest
      (if !set_find value set_point && decide (value.distance_with A p < min) then
        (value.distance_with A p, value)
      else (min, min_point))

end kdtree

/-! ## Lemmas on coordinates, distances and rectangles -/

@[simp] theorem coord_fin_le_fin (a b : ℚ) : Coord.fin a ≤ Coord.fin b ↔ a ≤ b := Iff.rfl
@[simp] theorem coord_negInf_le (a : Coord) : Coord.negInf ≤ a := by cases a <;> trivial
@[simp] theorem coord_le_posInf (a : Coord) : a ≤ Coord.posInf := by cases a <;> trivial
@[simp] theorem coord_fin_le_negInf (a : ℚ) : ¬ Coord.fin a ≤ Coord.negInf := fun h => h
@[simp] theorem coord_posInf_le_fin (a : ℚ) : ¬ Coord.posInf ≤ Coord.fin a := fun h => h
@[simp] theorem coord_posInf_le_negInf : ¬ Coord.posInf ≤ Coord.negInf := fun h => h
@[simp] theorem coord_fin_sub_fin (a b : ℚ) : Coord.fin a - Coord.fin b = Coord.fin (a - b) := rfl
@[simp] theorem coord_fin_sub_negInf (a : ℚ) : Coord.fin a - Coord.negInf = Coord.posInf := rfl
@[simp] theorem coord_fin_sub_posInf (a : ℚ) : Coord.fin a - Coord.posInf = Coord.negInf := rfl
@[simp] theorem coord_negInf_sub (a : Coord) : Coord.negInf - a = Coord.negInf := rfl
@[simp] theorem coord_posInf_sub (a : Coord) : Coord.posInf - a = Coord.posInf := rfl
@[simp] theorem dist_root_le_root (a b : ℚ) : Dist.root a ≤ Dist.root b ↔ a ≤ b := Iff.rfl
@[simp] theorem dist_le_inf (a : Dist) : a ≤ Dist.inf := by cases a <;> trivial
@[simp] theorem dist_inf_le_root (a : ℚ) : ¬ Dist.inf ≤ Dist.root a := fun h => h

theorem hypot_eq_padd (u v : Coord) : hypot u v = Dist.padd (abs u) (abs v) := by
  cases u <;> cases v <;> rfl

theorem padd_mono {a a' b b' : Dist} (ha : a ≤ a') (hb : b ≤ b') :
    Dist.padd a b ≤ Dist.padd a' b' := by
  cases a <;> cases a' <;> cases b <;> cases b' <;> simp_all [Dist.padd]
  linarith

@[simp] theorem coord_max_fin (a b : ℚ) :
    max (Coord.fin a) (Coord.fin b) = Coord.fin (max a b) := by
  simp only [max_def, coord_fin_le_fin]; split_ifs <;> rfl
@[simp] theorem coord_max_negInf_left (a : Coord) : max Coord.negInf a = a := by simp [max_def]
@[simp] theorem coord_max_negInf_right (a : Coord) : max a Coord.negInf = a := by
  cases a <;> simp [max_def]
@[simp] theorem coord_max_posInf_left (a : Coord) : max Coord.posInf a = Coord.posInf := by
  cases a <;> simp [max_def]
@[simp] theorem coord_max_posInf_right (a : Coord) : max a Coord.posInf = Coord.posInf := by
  simp [max_def]
@[simp] theorem dist_min_root (a b : ℚ) :
    min (Dist.root a) (Dist.root b) = Dist.root (min a b) := by
  simp only [min_def, dist_root_le_root]; split_ifs <;> rfl
@[simp] theorem dist_min_inf_left (a : Dist) : min Dist.inf a = a := by
  cases a <;> simp [min_def]
@[simp] theorem dist_min_inf_right (a : Dist) : min a Dist.inf = a := by simp [min_def]
@[simp] theorem abs_fin (a : ℚ) : abs (Coord.fin a) = Dist.root (a * a) := rfl
@[simp] theorem abs_posInf : abs Coord.posInf = Dist.inf := rfl
@[simp] theorem abs_negInf : abs Coord.negInf = Dist.inf := rfl

theorem rat_gap_outside (l h a : ℚ) (hle : l ≤ h) (hout : l ≤ a → h < a) :
    min ((l - a) * (l - a)) ((h - a) * (h - a))
      = max (l - a) (max 0 (a - h)) * max (l - a) (max 0 (a - h)) := by
  rcases lt_or_le a l with hl | hl
  · rw [max_eq_left (max_le (by linarith) (by linarith)), min_eq_left (by nlinarith)]
  · have hh := hout hl
    rw [max_eq_right (le_max_of_le_right (by linarith)), max_eq_right (by linarith),
      min_eq_right (by nlinarith)]
    ring

theorem rat_gap_le (l h a c : ℚ) (h₁ : l ≤ c) (h₂ : c ≤ h) :
    max (l - a) (max 0 (a - h)) * max (l - a) (max 0 (a - h)) ≤ (a - c) * (a - c) := by
  rcases le_total (l - a) (max 0 (a - h)) with h3 | h3
  · rw [max_eq_right h3]
    rcases le_total 0 (a - h) with h4 | h4
    · rw [max_eq_right h4]; nlinarith
    · rw [max_eq_left h4]; nlinarith
  · rw [max_eq_left h3]
    have := le_trans (le_max_left 0 (a - h)) h3
    nlinarith

theorem abs_sub_comm' (a : ℚ) (c : Coord) : abs (Coord.fin a - c) = abs (c - Coord.fin a) := by
  cases c <;> simp
  ring

theorem gap_of_inside (lo hi : Coord) (a : ℚ) (h₁ : lo ≤ Coord.fin a)
    (h₂ : Coord.fin a ≤ hi) :
    gap lo hi (Coord.fin a) = Coord.fin 0 := by
  cases lo <;> cases hi <;> simp_all [gap]

theorem gap_of_outside (lo hi : Coord) (a : ℚ)
    (h : ¬ (lo ≤ Coord.fin a ∧ Coord.fin a ≤ hi)) (hle : lo ≤ hi) :
    min (abs (lo - Coord.fin a)) (abs (hi - Coord.fin a)) = abs (gap lo hi (Coord.fin a)) := by
  rcases lo with _ | l | _ <;> rcases hi with _ | u | _ <;> simp_all [gap]
  · rw [max_eq_right (by linarith)]; ring
  · exact rat_gap_outside l u a hle h
  · rw [max_eq_left (by linarith)]

theorem gap_le (lo hi : Coord) (a c : ℚ) (h₁ : lo ≤ Coord.fin c) (h₂ : Coord.fin c ≤ hi) :
    abs (gap lo hi (Coord.fin a)) ≤ abs (Coord.fin a - Coord.fin c) := by
  rcases lo with _ | l | _ <;> rcases hi with _ | u | _ <;> simp_all [gap]
  · rcases le_total 0 (a - u) with h4 | h4
    · rw [max_eq_right h4]; nlinarith
    · rw [max_eq_left h4]; nlinarith
  · exact mul_self_nonneg _
  · exact rat_gap_le l u a c h₁ h₂
  · rcases le_total (l - a) 0 with h4 | h4
    · rw [max_eq_right h4]; nlinarith
    · rw [max_eq_left h4]; nlinarith

theorem dist_padd_zero_left (d : Dist) : Dist.padd (Dist.root 0) d = d := by
  cases d <;> simp [Dist.padd]

theorem dist_padd_zero_right (d : Dist) : Dist.padd d (Dist.root 0) = d := by
  cases d <;> simp [Dist.padd]

theorem min_four_padd (a₁ a₂ b₁ b₂ : Dist) :
    min (min (min (Dist.padd a₁ b₁) (Dist.padd a₂ b₂)) (Dist.padd a₁ b₂))
        (Dist.padd a₂ b₁)
      = Dist.padd (min a₁ a₂) (min b₁ b₂) := by
  apply le_antisymm
  · rcases le_total a₁ a₂ with ha | ha <;> rcases le_total b₁ b₂ with hb | hb
    · rw [min_eq_left ha, min_eq_left hb]
      exact (min_le_left _ _).trans ((min_le_left _ _).trans (min_le_left _ _))
    · rw [min_eq_left ha, min_eq_right hb]
      exact (min_le_left _ _).trans (min_le_right _ _)
    · rw [min_eq_right ha, min_eq_left hb]
      exact min_le_right _ _
    · rw [min_eq_right ha, min_eq_right hb]
      exact (min_le_left _ _).trans ((min_le_left _ _).trans (min_le_right _ _))
  · exact le_min (le_min (le_min (padd_mono (min_le_left _ _) (min_le_left _ _))
      (padd_mono (min_le_right _ _) (min_le_right _ _)))
      (padd_mono (min_le_left _ _) (min_le_right _ _)))
      (padd_mono (min_le_right _ _) (min_le_left _ _))

theorem distance_eq_formula (R : Rect) (a b : ℚ) (hx : R.xmin ≤ R.xmax)
    (hy : R.ymin ≤ R.ymax) :
    R.distance (Point.ofRat a b) = R.distance_formula (Point.ofRat a b) := by
  obtain ⟨⟨lx, ly⟩, ⟨ux, uy⟩⟩ := R
  simp only [Rect.xmin, Rect.xmax, Rect.ymin, Rect.ymax] at hx hy
  simp only [Rect.distance, Rect.distance_formula, Rect.contains, Rect.xmin, Rect.xmax,
    Rect.ymin, Rect.ymax, Point.ofRat, Point.distance, hypot_eq_padd, ge_iff_le,
    Bool.and_eq_true, decide_eq_true_eq]
  by_cases h1 : lx ≤ Coord.fin a ∧ Coord.fin a ≤ ux <;>
    by_cases h2 : ly ≤ Coord.fin b ∧ Coord.fin b ≤ uy
  · rw [if_pos ⟨⟨h1, h2.1⟩, h2.2⟩, gap_of_inside _ _ _ h1.1 h1.2,
      gap_of_inside _ _ _ h2.1 h2.2]
    simp [Dist.padd]
  · rw [if_neg (fun h => h2 ⟨h.1.2, h.2⟩), if_pos h1, gap_of_inside _ _ _ h1.1 h1.2,
      gap_of_outside _ _ _ h2 hy]
    simp [dist_padd_zero_left]
  · rw [if_neg (fun h => h1 h.1.1), if_neg h1, if_pos h2,
      gap_of_inside _ _ _ h2.1 h2.2, gap_of_outside _ _ _ h1 hx]
    simp [dist_padd_zero_right]
  · rw [if_neg (fun h => h2 ⟨h.1.2, h.2⟩), if_neg h1, if_neg h2, min_four_padd,
      abs_sub_comm' a lx, abs_sub_comm' a ux, abs_sub_comm' b ly, abs_sub_comm' b uy,
      gap_of_outside _ _ _ h1 hx, gap_of_outside _ _ _ h2 hy]

theorem contains_iff (R : Rect) (p : Point) :
    R.contains p = true ↔
      (R.xmin ≤ p.x ∧ p.x ≤ R.xmax) ∧ (R.ymin ≤ p.y ∧ p.y ≤ R.ymax) := by
  simp [Rect.contains, and_assoc]

theorem rect_distance_le (R : Rect) (a b c d : ℚ) (h : R.contains (Point.ofRat c d) = true) :
    R.distance (Point.ofRat a b) ≤ (Point.ofRat a b).distance (Point.ofRat c d) := by
  obtain ⟨⟨hx₁, hx₂⟩, hy₁, hy₂⟩ := (contains_iff R _).1 h
  rw [distance_eq_formula R a b (hx₁.trans hx₂) (hy₁.trans hy₂), Rect.distance_formula,
    Point.distance, hypot_eq_padd, hypot_eq_padd]
  exact padd_mono (gap_le _ _ a c hx₁ hx₂) (gap_le _ _ b d hy₁ hy₂)

theorem gap_attained (lo hi : Coord) (a g : ℚ) (hle : lo ≤ hi)
    (hg : gap lo hi (Coord.fin a) = Coord.fin g) :
    ∃ c : ℚ, lo ≤ Coord.fin c ∧ Coord.fin c ≤ hi ∧ (a - c) * (a - c) = g * g := by
  by_cases h : lo ≤ Coord.fin a ∧ Coord.fin a ≤ hi
  · rw [gap_of_inside _ _ _ h.1 h.2] at hg
    cases hg
    exact ⟨a, h.1, h.2, by ring⟩
  · rcases lo with _ | l | _ <;> rcases hi with _ | u | _ <;> simp_all [gap]
    · exact ⟨u, le_rfl, by rw [← hg, max_eq_right (by linarith)]⟩
    · rcases lt_or_le a l with hl | hl
      · refine ⟨l, le_rfl, hle, ?_⟩
        rw [← hg, max_eq_left (max_le (by linarith) (by linarith))]
        ring
      · have hu := h hl
        refine ⟨u, hle, le_rfl, ?_⟩
        rw [← hg, max_eq_right (le_max_of_le_right (by linarith)), max_eq_right (by linarith)]
    · refine ⟨l, le_rfl, ?_⟩
      rw [← hg, max_eq_left (by linarith)]
      ring

theorem gap_eq_zero (lo hi : Coord) (a : ℚ) (hg : gap lo hi (Coord.fin a) = Coord.fin 0) :
    lo ≤ Coord.fin a ∧ Coord.fin a ≤ hi := by
  rcases lo with _ | l | _ <;> rcases hi with _ | u | _ <;> simp_all [gap]
  have h₁ := le_max_left (l - a) (max 0 (a - u))
  have h₂ := (le_max_right 0 (a - u)).trans (le_max_right (l - a) (max 0 (a - u)))
  rw [hg] at h₁ h₂
  constructor <;> linarith

theorem hypot_eq_zero (u v : Coord) (h : hypot u v = Dist.root 0) :
    u = Coord.fin 0 ∧ v = Coord.fin 0 := by
  rcases u with _ | u | _ <;> rcases v with _ | v | _ <;> simp_all [hypot]
  constructor <;> nlinarith [mul_self_nonneg u, mul_self_nonneg v]

theorem distance_eq_zero_iff (R : Rect) (a b : ℚ) (hx : R.xmin ≤ R.xmax)
    (hy : R.ymin ≤ R.ymax) :
    R.distance (Point.ofRat a b) = Dist.root 0 ↔ R.contains (Point.ofRat a b) = true := by
  constructor
  · intro h
    rw [distance_eq_formula R a b hx hy, Rect.distance_formula] at h
    obtain ⟨h₁, h₂⟩ := hypot_eq_zero _ _ h
    exact (contains_iff R _).2 ⟨gap_eq_zero _ _ _ h₁, gap_eq_zero _ _ _ h₂⟩
  · intro h
    simp [Rect.distance, h]

namespace kdtree

/-! ## Lemmas on `put` and `contains` -/

/-- The operator `==` of `Point` holds exactly for equal coordinates. -/
theorem point_eq_iff (a b : Point) : a.eq b = true ↔ a = b := by
  cases a; cases b
  simp only [Point.eq, Point.mk.injEq]
  split_ifs with h <;> simp [h]

/-- After the loop of `put` has run for `p`, the loop of `contains` finds `q` exactly when
`q` is `p` or was found before. -/
theorem contains_loop_put_loop (p q : Point) (pr : Nat) (n : Node) :
    contains_loop q (put_loop p pr n) = true ↔ q = p ∨ contains_loop q n = true := by
  induction n generalizing pr with
  | null =>
    have h : p = q ↔ q = p := eq_comm
    simp [put_loop, Node.new, contains_loop, point_eq_iff, h]
  | mk v l r s rate ihl ihr =>
    by_cases hvp : v = p
    · subst hvp
      have h : v.eq v = true := (point_eq_iff v v).2 rfl
      simp only [put_loop, h, if_true]
      constructor
      · exact Or.inr
      · rintro (rfl | h')
        · simp [contains_loop, h]
        · exact h'
    · have h : v.eq p = false := by
        rw [← Bool.not_eq_true, point_eq_iff]; exact hvp
      simp only [put_loop, h, Bool.false_eq_true, if_false]
      by_cases hvq : v = q
      · subst hvq
        have h2 : v.eq v = true := (point_eq_iff v v).2 rfl
        split_ifs <;> simp [contains_loop, h2]
      · have h2 : v.eq q = false := by
          rw [← Bool.not_eq_true, point_eq_iff]; exact hvq
        by_cases gp : goes_right rate v p = true <;> by_cases gq : goes_right rate v q = true
        · simp [contains_loop, h2, gp, gq, ihr]
        · have hne : q ≠ p := by rintro rfl; exact gq gp
          simp [contains_loop, h2, gp, gq, hne]
        · have hne : q ≠ p := by rintro rfl; exact gp gq
          simp [contains_loop, h2, gp, gq, hne]
        · simp [contains_loop, h2, gp, gq, ihl]

theorem contains_eq_loop (t : PointSet) (q : Point) :
    t.contains q = contains_loop q t.Root := by
  obtain ⟨n⟩ := t
  cases n <;> simp [PointSet.contains, PointSet.empty, contains_loop]

theorem put_Root (t : PointSet) (p : Point) : (t.put p).Root = put_loop p 1 t.Root := by
  obtain ⟨n⟩ := t
  cases n <;> simp [PointSet.put, put_loop]

theorem contains_put (t : PointSet) (p q : Point) :
    (t.put p).contains q = true ↔ q = p ∨ t.contains q = true := by
  rw [contains_eq_loop, contains_eq_loop, put_Root, contains_loop_put_loop]

theorem contains_foldl_put (ps : List Point) (t : PointSet) (q : Point) :
    (ps.foldl PointSet.put t).contains q = true ↔ q ∈ ps ∨ t.contains q = true := by
  induction ps generalizing t with
  | nil => simp
  | cons p ps ih =>
    rw [List.foldl_cons, ih, contains_put, List.mem_cons]
    tauto

/-! ## Lemmas on the implicit rectangles -/

theorem mem_iterate_put_loop (p s : Point) (pr : Nat) (n : Node) :
    s ∈ iterate (put_loop p pr n) ↔ s = p ∨ s ∈ iterate n := by
  induction n generalizing pr with
  | null => simp [put_loop, Node.new, iterate]
  | mk v l r sz rate ihl ihr =>
    by_cases hvp : v = p
    · subst hvp
      have h : v.eq v = true := (point_eq_iff v v).2 rfl
      simp [put_loop, h, iterate]
    · have h : v.eq p = false := by
        rw [← Bool.not_eq_true, point_eq_iff]; exact hvp
      simp only [put_loop, h, Bool.false_eq_true, if_false]
      split_ifs
      · simp only [iterate, List.mem_cons, List.mem_append, ihr]; tauto
      · simp only [iterate, List.mem_cons, List.mem_append, ihl]; tauto

theorem mem_points_put (t : PointSet) (p s : Point) :
    s ∈ (t.put p).points ↔ s = p ∨ s ∈ t.points := by
  rw [PointSet.points, PointSet.points, put_Root, mem_iterate_put_loop]

theorem mem_points_foldl_put (ps : List Point) (t : PointSet) (s : Point) :
    s ∈ (ps.foldl PointSet.put t).points ↔ s ∈ ps ∨ s ∈ t.points := by
  induction ps generalizing t with
  | nil => simp
  | cons p ps ih =>
    rw [List.foldl_cons, ih, mem_points_put, List.mem_cons]
    tauto

theorem mem_points_fromList (ps : List Point) (s : Point) :
    s ∈ (fromList ps).points ↔ s ∈ ps := by
  rw [fromList, mem_points_foldl_put]
  simp [PointSet.points, iterate]

theorem goes_right_iff (rate : Nat) (v p : Point) :
    goes_right rate v p = true ↔ (rate = 0 ∧ v.x ≤ p.x) ∨ (rate = 1 ∧ v.y ≤ p.y) := by
  simp [goes_right]

theorem left_rect_contains (r : Rect) (v p : Point) (rate : Nat)
    (hp : r.contains p = true) (hg : goes_right rate v p = false) :
    (left_rect r v rate).contains p = true := by
  rw [← Bool.not_eq_true, goes_right_iff] at hg
  rw [contains_iff] at hp ⊢
  push_neg at hg
  obtain ⟨⟨h1, h2⟩, h3, h4⟩ := hp
  simp only [left_rect, Rect.xmin, Rect.xmax, Rect.ymin, Rect.ymax]
  refine ⟨⟨h1, ?_⟩, h3, ?_⟩
  · split_ifs with h0
    · exact (hg.1 h0).le
    · exact h2
  · split_ifs with h0
    · exact (hg.2 h0).le
    · exact h4

theorem right_rect_contains (r : Rect) (v p : Point) (rate : Nat)
    (hp : r.contains p = true) (hg : goes_right rate v p = true) :
    (right_rect r v rate).contains p = true := by
  rw [goes_right_iff] at hg
  rw [contains_iff] at hp ⊢
  obtain ⟨⟨h1, h2⟩, h3, h4⟩ := hp
  simp only [right_rect, Rect.xmin, Rect.xmax, Rect.ymin, Rect.ymax]
  refine ⟨⟨?_, h2⟩, ?_, h4⟩
  · split_ifs with h0
    · rcases hg with hg | hg
      · exact hg.2
      · omega
    · exact h1
  · split_ifs with h0
    · rcases hg with hg | hg
      · omega
      · exact hg.2
    · exact h3

/-- The loop of `put` keeps every point inside the rectangle of its subtree. -/
theorem bounded_put_loop (p : Point) (pr : Nat) (n : Node) (r : Rect)
    (hb : Bounded r n) (hp : r.contains p = true) : Bounded r (put_loop p pr n) := by
  induction n generalizing pr r with
  | null => simp [put_loop, Node.new, Bounded, hp]
  | mk v l rt sz rate ihl ihr =>
    obtain ⟨h1, h2, h3⟩ := hb
    simp only [put_loop]
    split_ifs with he hg
    · exact ⟨h1, h2, h3⟩
    · exact ⟨h1, h2, ihr _ _ h3 (right_rect_contains r v p rate hp hg)⟩
    · exact ⟨h1, ihl _ _ h2 (left_rect_contains r v p rate hp (by simpa using hg)), h3⟩

theorem plane_contains (p : Point) : Rect.plane.contains p = true := by
  simp [contains_iff, Rect.plane, Rect.xmin, Rect.xmax, Rect.ymin, Rect.ymax, INF]

theorem bounded_foldl_put (ps : List Point) (t : PointSet) (hb : Bounded Rect.plane t.Root) :
    Bounded Rect.plane (ps.foldl PointSet.put t).Root := by
  induction ps generalizing t with
  | nil => exact hb
  | cons p ps ih =>
    rw [List.foldl_cons]
    apply ih
    rw [put_Root]
    exact bounded_put_loop p 1 _ _ hb (plane_contains p)

theorem bounded_fromList (ps : List Point) : Bounded Rect.plane (fromList ps).Root :=
  bounded_foldl_put ps ⟨Node.null⟩ trivial

theorem contains_of_left_rect (r : Rect) (v s : Point) (rate : Nat)
    (hv : r.contains v = true) (hs : (left_rect r v rate).contains s = true) :
    r.contains s = true := by
  rw [contains_iff] at hv hs ⊢
  obtain ⟨⟨h1, h2⟩, h3, h4⟩ := hs
  simp only [left_rect, Rect.xmin, Rect.xmax, Rect.ymin, Rect.ymax] at h1 h2 h3 h4
  refine ⟨⟨h1, ?_⟩, h3, ?_⟩
  · split_ifs at h2
    · exact h2.trans hv.1.2
    · exact h2
  · split_ifs at h4
    · exact h4.trans hv.2.2
    · exact h4

theorem contains_of_right_rect (r : Rect) (v s : Point) (rate : Nat)
    (hv : r.contains v = true) (hs : (right_rect r v rate).contains s = true) :
    r.contains s = true := by
  rw [contains_iff] at hv hs ⊢
  obtain ⟨⟨h1, h2⟩, h3, h4⟩ := hs
  simp only [right_rect, Rect.xmin, Rect.xmax, Rect.ymin, Rect.ymax] at h1 h2 h3 h4
  refine ⟨⟨?_, h2⟩, ?_, h4⟩
  · split_ifs at h1
    · exact hv.1.1.trans h1
    · exact h1
  · split_ifs at h3
    · exact hv.2.1.trans h3
    · exact h3

theorem bounded_contains (n : Node) (r : Rect) (hb : Bounded r n) :
    ∀ s ∈ iterate n, r.contains s = true := by
  induction n generalizing r with
  | null => simp [iterate]
  | mk v l rt sz rate ihl ihr =>
    obtain ⟨h1, h2, h3⟩ := hb
    intro s hs
    simp only [iterate, List.mem_cons, List.mem_append] at hs
    rcases hs with rfl | hs | hs
    · exact h1
    · exact contains_of_left_rect r v s rate h1 (ihl _ h2 s hs)
    · exact contains_of_right_rect r v s rate h1 (ihr _ h3 s hs)

end kdtree

/-! ## Lemmas on the order of points and on `std::set<Point>` -/

/-- The operator `<` of `Point` is the lexicographic order, `x` first. -/
theorem point_lt_iff (a b : Point) :
    a.lt b = true ↔ a.x < b.x ∨ (a.x = b.x ∧ a.y < b.y) := by
  unfold Point.lt
  split_ifs with h
  · simp [h]
  · simp [h]

theorem point_lt_irrefl (a : Point) : a.lt a = false := by
  simp [Point.lt]

theorem point_lt_trans (a b c : Point) (h₁ : a.lt b = true) (h₂ : b.lt c = true) :
    a.lt c = true := by
  rw [point_lt_iff] at *
  rcases h₁ with h₁ | ⟨h₁, h₁'⟩ <;> rcases h₂ with h₂ | ⟨h₂, h₂'⟩
  · exact Or.inl (h₁.trans h₂)
  · exact Or.inl (h₂ ▸ h₁)
  · exact Or.inl (h₁ ▸ h₂)
  · exact Or.inr ⟨h₁.trans h₂, h₁'.trans h₂'⟩

theorem point_lt_asymm (a b : Point) (h : a.lt b = true) : b.lt a = false := by
  rw [← Bool.not_eq_true]
  intro h'
  have := point_lt_trans a b a h h'
  rw [point_lt_irrefl] at this
  exact Bool.false_ne_true this

theorem point_eq_of_not_lt (a b : Point) (h₁ : a.lt b = false) (h₂ : b.lt a = false) :
    a = b := by
  rw [← Bool.not_eq_true, point_lt_iff] at h₁ h₂
  push_neg at h₁ h₂
  obtain ⟨ax, ay⟩ := a
  obtain ⟨bx, b₂⟩ := b
  simp only at h₁ h₂
  have hx : ax = bx := le_antisymm h₂.1 h₁.1
  subst hx
  have hy : ay = b₂ := le_antisymm (h₂.2 rfl) (h₁.2 rfl)
  rw [hy]

/-- The elements of a `std::set` after `insert (p)`: `p` and the elements before. -/
theorem mem_set_insert (p x : Point) (s : List Point) :
    x ∈ set_insert p s ↔ x = p ∨ x ∈ s := by
  induction s with
  | nil => simp [set_insert]
  | cons q qs ih =>
    unfold set_insert
    split_ifs with h₁ h₂
    · simp
    · simp only [List.mem_cons, ih]; tauto
    · have hpq : p = q := point_eq_of_not_lt p q (by simpa using h₁) (by simpa using h₂)
      subst hpq
      simp

/-- The call `insert (p)` keeps a `std::set` strictly ascending. -/
theorem pairwise_set_insert (p : Point) (s : List Point)
    (hs : s.Pairwise fun a b => a.lt b = true) :
    (set_insert p s).Pairwise fun a b => a.lt b = true := by
  induction s with
  | nil => simp [set_insert]
  | cons q qs ih =>
    rw [List.pairwise_cons] at hs
    unfold set_insert
    split_ifs with h₁ h₂
    · refine List.pairwise_cons.2 ⟨?_, List.pairwise_cons.2 hs⟩
      intro x hx
      rcases List.mem_cons.1 hx with rfl | hx
      · exact h₁
      · exact point_lt_trans p q x h₁ (hs.1 x hx)
    · refine List.pairwise_cons.2 ⟨?_, ih hs.2⟩
      intro x hx
      rcases (mem_set_insert p x qs).1 hx with rfl | hx
      · exact h₂
      · exact hs.1 x hx
    · exact List.pairwise_cons.2 hs

theorem nodup_of_pairwise_lt (s : List Point) (hs : s.Pairwise fun a b => a.lt b = true) :
    s.Nodup := by
  refine List.Pairwise.imp ?_ hs
  intro a b h e
  subst e
  rw [point_lt_irrefl] at h
  exact Bool.false_ne_true h

/-! ## Lemmas on `funct`, `range` and `print_iterator` -/

namespace kdtree

theorem funct_with_intersects (set : List Point) (r rect : Rect) (n : Node) :
    funct_with Rect.intersects set r rect n = funct set r rect n := by
  induction n generalizing set rect with
  | null => rfl
  | mk v l rt sz rate ihl ihr => simp only [funct_with, funct, ihl, ihr]

/-- Whatever the pruning test answers, `funct` only adds points of the subtree that the
query rectangle contains. -/
theorem mem_funct_with (test : Rect → Rect → Bool) (set : List Point) (r rect : Rect)
    (n : Node) (x : Point) (hx : x ∈ funct_with test set r rect n) :
    x ∈ set ∨ (x ∈ iterate n ∧ r.contains x = true) := by
  induction n generalizing set rect with
  | null => exact Or.inl hx
  | mk v l rt sz rate ihl ihr =>
    simp only [funct_with] at hx
    split_ifs at hx with h₁ h₂
    · exact Or.inl hx
    · rcases ihr _ _ hx with hx | hx
      · rcases ihl _ _ hx with hx | hx
        · rcases (mem_set_insert v x set).1 hx with rfl | hx
          · exact Or.inr ⟨by simp [iterate], h₂⟩
          · exact Or.inl hx
        · exact Or.inr ⟨by simp [iterate, hx.1], hx.2⟩
      · exact Or.inr ⟨by simp [iterate, hx.1], hx.2⟩
    · rcases ihr _ _ hx with hx | hx
      · rcases ihl _ _ hx with hx | hx
        · exact Or.inl hx
        · exact Or.inr ⟨by simp [iterate, hx.1], hx.2⟩
      · exact Or.inr ⟨by simp [iterate, hx.1], hx.2⟩

theorem pairwise_funct_with (test : Rect → Rect → Bool) (set : List Point) (r rect : Rect)
    (n : Node) (hs : set.Pairwise fun a b => a.lt b = true) :
    (funct_with test set r rect n).Pairwise fun a b => a.lt b = true := by
  induction n generalizing set rect with
  | null => exact hs
  | mk v l rt sz rate ihl ihr =>
    simp only [funct_with]
    split_ifs with h₁ h₂
    · exact hs
    · exact ihr _ _ (ihl _ _ (pairwise_set_insert v set hs))
    · exact ihr _ _ (ihl _ _ hs)

theorem iterate_print_iterator_loop (pr : Nat) (s : List Point) :
    iterate (print_iterator_loop pr s) = s := by
  induction s generalizing pr with
  | nil => rfl
  | cons p rest ih => simp [print_iterator_loop, iterate, ih]

/-- The iterator pair of `print_iterator` yields the elements of the set in their order. -/
theorem iterate_print_iterator (s : List Point) : iterate (print_iterator s) = s := by
  cases s with
  | nil => rfl
  | cons p rest => simp [print_iterator, iterate, iterate_print_iterator_loop]

theorem range_with_eq (test : Rect → Rect → Bool) (t : PointSet) (r : Rect) :
    t.range_with test r = funct_with test [] r Rect.plane t.Root := by
  unfold PointSet.range_with
  simp only [iterate_print_iterator]
  split_ifs with h
  · exact (List.isEmpty_iff.1 h).symm
  · rfl

theorem range_eq_range_with (t : PointSet) (r : Rect) :
    t.range r = t.range_with Rect.intersects r := by
  simp only [PointSet.range, PointSet.range_with, funct_with_intersects]

end kdtree

/-! ## Lemmas on `Rect::intersects` -/

theorem corners_contained (b : Rect) (hx : b.xmin ≤ b.xmax) (hy : b.ymin ≤ b.ymax) :
    ∀ c ∈ b.corners, b.contains c = true := by
  intro c hc
  simp only [Rect.corners, List.mem_cons, List.mem_singleton, List.not_mem_nil, or_false] at hc
  rcases hc with rfl | rfl | rfl | rfl <;> simp [contains_iff, hx, hy]

/-- The method `intersects` as the disjunction of its seven distinct corner tests. -/
theorem intersects_iff_tests (a b : Rect) :
    a.intersects b = true ↔
      (a.contains ⟨b.xmin, b.ymin⟩ = true ∨ a.contains ⟨b.xmin, b.ymax⟩ = true ∨
        a.contains ⟨b.xmax, b.ymin⟩ = true) ∨
      (b.contains ⟨a.xmin, a.ymin⟩ = true ∨ b.contains ⟨a.xmax, a.ymax⟩ = true ∨
        b.contains ⟨a.xmin, a.ymax⟩ = true ∨ b.contains ⟨a.xmax, a.ymin⟩ = true) := by
  obtain ⟨⟨ax, ay⟩, ⟨aX, aY⟩⟩ := a
  simp only [Rect.intersects, Rect.xmin, Rect.xmax, Rect.ymin, Rect.ymax, Bool.or_eq_true]
  split_ifs with h₁ h₂ <;> tauto

/-- When `a` contains the corner `(xmax, ymax)` of `b`, the one the first test of
`a.intersects (b)` leaves out, another test of `a.intersects (b)` succeeds. -/
theorem omitted_corner_covered (a b : Rect) (hx : b.xmin ≤ b.xmax) (hy : b.ymin ≤ b.ymax)
    (h : a.contains ⟨b.xmax, b.ymax⟩ = true) :
    a.contains ⟨b.xmin, b.ymax⟩ = true ∨ a.contains ⟨b.xmax, b.ymin⟩ = true ∨
      b.contains ⟨a.xmin, a.ymin⟩ = true := by
  rw [contains_iff] at h
  obtain ⟨⟨h₁, h₂⟩, h₃, h₄⟩ := h
  simp only at h₁ h₂ h₃ h₄
  rcases le_total a.xmin b.xmin with hc | hc
  · exact Or.inl ((contains_iff _ _).2 ⟨⟨hc, hx.trans h₂⟩, h₃, h₄⟩)
  · rcases le_total a.ymin b.ymin with hd | hd
    · exact Or.inr (Or.inl ((contains_iff _ _).2 ⟨⟨h₁, h₂⟩, hd, hy.trans h₄⟩))
    · exact Or.inr (Or.inr ((contains_iff _ _).2 ⟨⟨hc, h₁⟩, hd, h₃⟩))

theorem intersects_iff_corners (a b : Rect) (hx : b.xmin ≤ b.xmax) (hy : b.ymin ≤ b.ymax) :
    a.intersects b = true ↔
      (∃ c ∈ b.corners, a.contains c = true) ∨ (∃ c ∈ a.corners, b.contains c = true) := by
  rw [intersects_iff_tests]
  simp only [Rect.corners, List.mem_cons, List.mem_singleton, List.not_mem_nil, or_false,
    exists_eq_or_imp, exists_eq_left]
  constructor
  · tauto
  · rintro ((h | h | h | h) | h)
    · tauto
    · tauto
    · tauto
    · have := omitted_corner_covered a b hx hy h
      tauto
    · tauto

/-! ## Lemmas on rates, splits and cached sizes -/

namespace kdtree

/-- The loop of `put` keeps the rate of every node at its depth modulo 2. -/
theorem ratesFrom_put_loop (p : Point) (pr d : Nat) (n : Node) (h : RatesFrom d n)
    (hpr : (pr + 1) % 2 = d % 2) : RatesFrom d (put_loop p pr n) := by
  induction n generalizing pr d with
  | null => simp [put_loop, Node.new, RatesFrom, hpr]
  | mk v l rt sz rate ihl ihr =>
    obtain ⟨h1, h2, h3⟩ := h
    simp only [put_loop]
    split_ifs
    · exact ⟨h1, h2, h3⟩
    · exact ⟨h1, h2, ihr rate (d + 1) h3 (by omega)⟩
    · exact ⟨h1, ihl rate (d + 1) h2 (by omega), h3⟩

theorem ratesFrom_foldl_put (ps : List Point) (t : PointSet) (h : RatesFrom 0 t.Root) :
    RatesFrom 0 (ps.foldl PointSet.put t).Root := by
  induction ps generalizing t with
  | nil => exact h
  | cons p ps ih =>
    rw [List.foldl_cons]
    apply ih
    rw [put_Root]
    exact ratesFrom_put_loop p 1 0 _ h rfl

theorem ratesFrom_fromList (ps : List Point) : RatesFrom 0 (fromList ps).Root :=
  ratesFrom_foldl_put ps ⟨Node.null⟩ trivial

theorem oppositeRate_of_ratesFrom (d : Nat) (n : Node) (h : RatesFrom (d + 1) n) :
    OppositeRate (d % 2) n := by
  cases n with
  | null => trivial
  | mk v l rt sz rate =>
    obtain ⟨h1, -, -⟩ := h
    simp only [OppositeRate]
    omega

theorem alternates_of_ratesFrom (d : Nat) (n : Node) (h : RatesFrom d n) : Alternates n := by
  induction n generalizing d with
  | null => trivial
  | mk v l rt sz rate ihl ihr =>
    obtain ⟨h1, h2, h3⟩ := h
    refine ⟨by omega, ?_, ?_, ihl _ h2, ihr _ h3⟩
    · rw [h1]; exact oppositeRate_of_ratesFrom d l h2
    · rw [h1]; exact oppositeRate_of_ratesFrom d rt h3

theorem goes_right_iff_axis (rate : Nat) (v p : Point) (hr : rate = 0 ∨ rate = 1) :
    goes_right rate v p = true ↔ axis rate v ≤ axis rate p := by
  rw [goes_right_iff]
  rcases hr with rfl | rfl <;> simp [axis]

/-- The loop of `put` keeps the left subtree of every node strictly below the node on its
axis and the right subtree at or above it. -/
theorem split_put_loop (p : Point) (pr d : Nat) (n : Node) (hr : RatesFrom d n)
    (h : Split n) : Split (put_loop p pr n) := by
  induction n generalizing pr d with
  | null => simp [put_loop, Node.new, Split, iterate]
  | mk v l rt sz rate ihl ihr =>
    obtain ⟨hr1, hr2, hr3⟩ := hr
    obtain ⟨h1, h2, h3, h4⟩ := h
    have hrate : rate = 0 ∨ rate = 1 := by omega
    simp only [put_loop]
    split_ifs with he hg
    · exact ⟨h1, h2, h3, h4⟩
    · refine ⟨h1, ?_, h3, ihr rate (d + 1) hr3 h4⟩
      intro s hs
      rcases (mem_iterate_put_loop p s rate rt).1 hs with rfl | hs
      · exact (goes_right_iff_axis rate v s hrate).1 hg
      · exact h2 s hs
    · refine ⟨?_, h2, ihl rate (d + 1) hr2 h3, h4⟩
      intro s hs
      rcases (mem_iterate_put_loop p s rate l).1 hs with rfl | hs
      · exact not_le.1 (fun hle => hg ((goes_right_iff_axis rate v s hrate).2 hle))
      · exact h1 s hs

theorem split_foldl_put (ps : List Point) (t : PointSet) (hr : RatesFrom 0 t.Root)
    (h : Split t.Root) : Split (ps.foldl PointSet.put t).Root := by
  induction ps generalizing t with
  | nil => exact h
  | cons p ps ih =>
    rw [List.foldl_cons]
    apply ih
    · rw [put_Root]; exact ratesFrom_put_loop p 1 0 _ hr rfl
    · rw [put_Root]; exact split_put_loop p 1 0 _ hr h

theorem enclosed_of_bounded (r : Rect) (n : Node) (h : Bounded r n) : Enclosed r n := by
  induction n generalizing r with
  | null => trivial
  | mk v l rt sz rate ihl ihr =>
    exact ⟨bounded_contains _ r h, ihl _ h.2.1, ihr _ h.2.2⟩

theorem size_eq_cached (t : PointSet) : t.size = t.Root.cached := by
  obtain ⟨n⟩ := t
  cases n <;> rfl

/-- The loop of `put` for a point that is not in the subtree adds one node, adds one to the
cached size, and keeps every cached size right. -/
theorem sizes_put_loop (p : Point) (pr : Nat) (n : Node) (hp : p ∉ iterate n)
    (h : SizesOk n) :
    SizesOk (put_loop p pr n) ∧ (put_loop p pr n).cached = n.cached + 1 ∧
      (put_loop p pr n).count = n.count + 1 ∧
      (iterate (put_loop p pr n)).Perm (p :: iterate n) := by
  induction n generalizing pr with
  | null => simp [put_loop, Node.new, SizesOk, Node.cached, Node.count, iterate]
  | mk v l rt sz rate ihl ihr =>
    obtain ⟨h1, h2, h3, h4⟩ := h
    simp only [iterate, List.mem_cons, List.mem_append, not_or] at hp
    obtain ⟨hpv, hpl, hpr⟩ := hp
    have he : v.eq p = false := by
      rw [← Bool.not_eq_true, point_eq_iff]; exact fun e => hpv e.symm
    simp only [put_loop, he, Bool.false_eq_true, if_false]
    split_ifs with hg
    · obtain ⟨i1, i2, i3, i4⟩ := ihr rate hpr h4
      refine ⟨⟨?_, ?_, h3, i1⟩, ?_, ?_, ?_⟩
      · rw [i2]; omega
      · rw [i3]; omega
      · simp [Node.cached]
      · simp only [Node.count, i3]; omega
      · simp only [iterate]
        exact ((List.Perm.append_left (iterate l) i4).trans List.perm_middle).cons v
          |>.trans (List.Perm.swap p v _)
    · obtain ⟨i1, i2, i3, i4⟩ := ihl rate hpl h3
      refine ⟨⟨?_, ?_, i1, h4⟩, ?_, ?_, ?_⟩
      · rw [i2]; omega
      · rw [i3]; omega
      · simp [Node.cached]
      · simp only [Node.count, i3]; omega
      · simp only [iterate]
        exact ((List.Perm.append_right (iterate rt) i4).cons v).trans (List.Perm.swap p v _)

theorem sizes_foldl_put (ps : List Point) (t : PointSet) (hnd : ps.Nodup)
    (hdis : ∀ p ∈ ps, p ∉ t.points) (h : SizesOk t.Root) :
    SizesOk (ps.foldl PointSet.put t).Root ∧
      (ps.foldl PointSet.put t).Root.cached = t.Root.cached + ps.length ∧
      (ps.foldl PointSet.put t).Root.count = t.Root.count + ps.length ∧
      (ps.foldl PointSet.put t).points.Perm (ps ++ t.points) := by
  induction ps generalizing t with
  | nil => simp [h]
  | cons p ps ih =>
    rw [List.nodup_cons] at hnd
    have hp : p ∉ iterate t.Root := hdis p (List.mem_cons_self _ _)
    obtain ⟨j1, j2, j3, j4⟩ := sizes_put_loop p 1 t.Root hp h
    rw [← put_Root] at j1 j2 j3 j4
    have hdis' : ∀ q ∈ ps, q ∉ (t.put p).points := by
      intro q hq hmem
      rcases (mem_points_put t p q).1 hmem with rfl | hmem
      · exact hnd.1 hq
      · exact hdis q (List.mem_cons_of_mem _ hq) hmem
    obtain ⟨k1, k2, k3, k4⟩ := ih (t.put p) hnd.2 hdis' j1
    rw [List.foldl_cons]
    refine ⟨k1, ?_, ?_, ?_⟩
    · rw [k2, j2, List.length_cons]; omega
    · rw [k3, j3, List.length_cons]; omega
    · refine k4.trans ?_
      rw [List.cons_append]
      exact (List.Perm.append_left ps j4).trans List.perm_middle

end kdtree

/-! ## Lemmas on the ordered-set backend -/

namespace rbtree

theorem rb_foldl_put (ps : List Point) (t : PointSet)
    (ht : t.set_rbtree.Pairwise fun a b => a.lt b = true) :
    (ps.foldl PointSet.put t).set_rbtree.Pairwise (fun a b => a.lt b = true) ∧
      ∀ x, x ∈ (ps.foldl PointSet.put t).set_rbtree ↔ x ∈ ps ∨ x ∈ t.set_rbtree := by
  induction ps generalizing t with
  | nil => simp [ht]
  | cons p ps ih =>
    obtain ⟨h1, h2⟩ := ih (t.put p) (pairwise_set_insert p _ ht)
    rw [List.foldl_cons]
    refine ⟨h1, fun x => ?_⟩
    rw [h2, PointSet.put, mem_set_insert, List.mem_cons]
    tauto

/-- The `std::set` built by `put` is strictly ascending and holds exactly the points put. -/
theorem rb_fromList (ps : List Point) :
    (fromList ps).set_rbtree.Pairwise (fun a b => a.lt b = true) ∧
      ∀ x, x ∈ (fromList ps).set_rbtree ↔ x ∈ ps := by
  obtain ⟨h1, h2⟩ := rb_foldl_put ps ⟨[]⟩ List.Pairwise.nil
  exact ⟨h1, fun x => by rw [fromList, h2]; simp⟩

end rbtree

/-! ## Lemmas on double arithmetic -/

theorem abs_le_abs_of_nonneg {x y : Coord} (h0 : Coord.fin 0 ≤ x) (h : x ≤ y) :
    abs x ≤ abs y := by
  rcases x with _ | x | _ <;> rcases y with _ | y | _ <;> simp_all
  nlinarith

theorem abs_le_abs_of_nonpos {x y : Coord} (h0 : y ≤ Coord.fin 0) (h : x ≤ y) :
    abs y ≤ abs x := by
  rcases x with _ | x | _ <;> rcases y with _ | y | _ <;> simp_all
  nlinarith

namespace Binary64

theorem log2_aux_spec (fuel n : ℕ) (hf : n ≤ fuel) (hn : 1 ≤ n) :
    2 ^ log2_aux fuel n ≤ n ∧ n < 2 ^ (log2_aux fuel n + 1) := by
  induction fuel generalizing n with
  | zero => omega
  | succ f ih =>
    unfold log2_aux
    split_ifs with h
    · have : n = 1 := by omega
      subst this; simp
    · have h2 : 1 ≤ n / 2 := by omega
      obtain ⟨i1, i2⟩ := ih (n / 2) (by omega) h2
      constructor
      · rw [pow_succ]; omega
      · rw [pow_succ]; omega

theorem nat_log2_spec (n : ℕ) (hn : 1 ≤ n) :
    2 ^ nat_log2 n ≤ n ∧ n < 2 ^ (nat_log2 n + 1) :=
  log2_aux_spec n n le_rfl hn

theorem isqrt_aux_spec (fuel n : ℕ) (hf : n ≤ fuel) :
    isqrt_aux fuel n * isqrt_aux fuel n ≤ n ∧
      n < (isqrt_aux fuel n + 1) * (isqrt_aux fuel n + 1) := by
  induction fuel generalizing n with
  | zero =>
    have : n = 0 := by omega
    subst this; simp [isqrt_aux]
  | succ f ih =>
    unfold isqrt_aux
    by_cases h0 : n = 0
    · subst h0; simp
    · rw [if_neg h0]
      obtain ⟨i1, i2⟩ := ih (n / 4) (by omega)
      generalize isqrt_aux f (n / 4) = r at *
      have hd := Nat.div_add_mod n 4
      have hm := Nat.mod_lt n (show 4 > 0 by norm_num)
      simp only
      by_cases h1 : (2 * r + 1) * (2 * r + 1) ≤ n
      · rw [if_pos h1]
        refine ⟨h1, ?_⟩
        have e : (2 * r + 1 + 1) * (2 * r + 1 + 1) = 4 * ((r + 1) * (r + 1)) := by ring
        omega
      · rw [if_neg h1]
        refine ⟨?_, by omega⟩
        have e : 2 * r * (2 * r) = 4 * (r * r) := by ring
        omega

theorem isqrt_spec (n : ℕ) : isqrt n * isqrt n ≤ n ∧ n < (isqrt n + 1) * (isqrt n + 1) :=
  isqrt_aux_spec n n le_rfl

theorem two_zpow_pos (k : ℤ) : (0 : ℚ) < 2 ^ k := zpow_pos (by norm_num) k

theorem two_zpow_mono {a b : ℤ} (h : a ≤ b) : (2 : ℚ) ^ a ≤ 2 ^ b :=
  zpow_le_zpow_right₀ (by norm_num) h

theorem two_zpow_add (a b : ℤ) : (2 : ℚ) ^ (a + b) = 2 ^ a * 2 ^ b :=
  zpow_add₀ (by norm_num) a b

theorem ilog2_spec (s : ℚ) (hs : 0 < s) :
    (2 : ℚ) ^ ilog2 s ≤ s ∧ s < (2 : ℚ) ^ (ilog2 s + 1) := by
  have hnum : 0 < s.num := Rat.num_pos.2 hs
  have hp : 1 ≤ s.num.natAbs := Int.natAbs_pos.2 hnum.ne'
  have hq : 1 ≤ s.den := s.den_pos
  obtain ⟨a1, a2⟩ := nat_log2_spec _ hp
  obtain ⟨b1, b2⟩ := nat_log2_spec _ hq
  unfold ilog2
  generalize nat_log2 s.num.natAbs = a at *
  generalize nat_log2 s.den = b at *
  have hs' : s = (s.num.natAbs : ℚ) / (s.den : ℚ) := by
    have h1 : ((s.num.natAbs : ℤ) : ℚ) = (s.num : ℚ) := by
      rw [Int.natAbs_of_nonneg hnum.le]
    rw [← Int.cast_natCast, h1, Rat.num_div_den]
  have ha1 : (2 : ℚ) ^ (a : ℤ) ≤ (s.num.natAbs : ℚ) := by
    rw [zpow_natCast]; exact_mod_cast a1
  have ha2 : (s.num.natAbs : ℚ) < (2 : ℚ) ^ ((a : ℤ) + 1) := by
    rw [show ((a : ℤ) + 1) = ((a + 1 : ℕ) : ℤ) by push_cast; ring, zpow_natCast]
    exact_mod_cast a2
  have hb1 : (2 : ℚ) ^ (b : ℤ) ≤ (s.den : ℚ) := by
    rw [zpow_natCast]; exact_mod_cast b1
  have hb2 : (s.den : ℚ) < (2 : ℚ) ^ ((b : ℤ) + 1) := by
    rw [show ((b : ℤ) + 1) = ((b + 1 : ℕ) : ℤ) by push_cast; ring, zpow_natCast]
    exact_mod_cast b2
  have hqpos : (0 : ℚ) < s.den := by exact_mod_cast hq
  have hup : s < (2 : ℚ) ^ ((a : ℤ) - b + 1) := by
    rw [hs', div_lt_iff₀ hqpos]
    calc (s.num.natAbs : ℚ) < 2 ^ ((a : ℤ) + 1) := ha2
      _ = 2 ^ ((a : ℤ) - b + 1) * 2 ^ (b : ℤ) := by rw [← two_zpow_add]; congr 1; ring
      _ ≤ 2 ^ ((a : ℤ) - b + 1) * s.den :=
        mul_le_mul_of_nonneg_left hb1 (two_zpow_pos _).le
  have hlo : (2 : ℚ) ^ ((a : ℤ) - b - 1) < s := by
    rw [hs', lt_div_iff₀ hqpos]
    calc (2 : ℚ) ^ ((a : ℤ) - b - 1) * s.den < 2 ^ ((a : ℤ) - b - 1) * 2 ^ ((b : ℤ) + 1) :=
        mul_lt_mul_of_pos_left hb2 (two_zpow_pos _)
      _ = 2 ^ (a : ℤ) := by rw [← two_zpow_add]; congr 1; ring
      _ ≤ s.num.natAbs := ha1
  split_ifs with h
  · exact ⟨h, hup⟩
  · refine ⟨hlo.le, ?_⟩
    rw [sub_add_cancel]
    exact not_le.1 h

theorem exponent_spec (s : ℚ) (hs : 0 < s) :
    -1022 ≤ exponent s ∧ (exponent s = -1022 ∨ (2 : ℚ) ^ exponent s * 2 ^ exponent s ≤ s) ∧
      s < (2 : ℚ) ^ (exponent s + 1) * 2 ^ (exponent s + 1) := by
  obtain ⟨h1, h2⟩ := ilog2_spec s hs
  refine ⟨le_max_right _ _, ?_, ?_⟩
  · by_cases h : ilog2 s / 2 ≤ -1022
    · left; exact max_eq_right h
    · right
      rw [exponent, max_eq_left (by omega), ← two_zpow_add]
      exact (two_zpow_mono (by omega)).trans h1
  · rw [← two_zpow_add]
    refine h2.trans_le (two_zpow_mono ?_)
    have := le_max_left (ilog2 s / 2) (-1022)
    rw [exponent]
    omega

theorem exponent_unique (s : ℚ) (hs : 0 < s) (X : ℤ) (h1 : -1022 ≤ X)
    (h2 : X = -1022 ∨ (2 : ℚ) ^ X * 2 ^ X ≤ s) (h3 : s < (2 : ℚ) ^ (X + 1) * 2 ^ (X + 1)) :
    exponent s = X := by
  obtain ⟨e1, e2, e3⟩ := exponent_spec s hs
  have key : ∀ A B : ℤ, -1022 ≤ B → (A = -1022 ∨ (2 : ℚ) ^ A * 2 ^ A ≤ s) →
      s < (2 : ℚ) ^ (B + 1) * 2 ^ (B + 1) → A ≤ B := by
    intro A B hB hA hs'
    by_contra hlt
    push_neg at hlt
    rcases hA with hA | hA
    · omega
    · have hm : (2 : ℚ) ^ (B + 1) ≤ 2 ^ A := two_zpow_mono (by omega)
      have := mul_le_mul hm hm (two_zpow_pos _).le (two_zpow_pos _).le
      linarith
  exact le_antisymm (key _ _ h1 e2 h3) (key _ _ e1 h2 e3)

theorem exponent_mono (s s' : ℚ) (hs : 0 < s) (h : s ≤ s') : exponent s ≤ exponent s' := by
  obtain ⟨e1, e2, e3⟩ := exponent_spec s hs
  obtain ⟨f1, f2, f3⟩ := exponent_spec s' (hs.trans_le h)
  by_contra hlt
  push_neg at hlt
  rcases e2 with e2 | e2
  · omega
  · have hm : (2 : ℚ) ^ (exponent s' + 1) ≤ 2 ^ exponent s := two_zpow_mono (by omega)
    have := mul_le_mul hm hm (two_zpow_pos _).le (two_zpow_pos _).le
    linarith

theorem round_even_sqrt_spec (t : ℚ) (ht : 0 ≤ t) :
    4 * t ≤ (2 * (round_even_sqrt t : ℚ) + 1) * (2 * round_even_sqrt t + 1) ∧
      (round_even_sqrt t = 0 ∨
        (2 * (round_even_sqrt t : ℚ) - 1) * (2 * round_even_sqrt t - 1) ≤ 4 * t) := by
  obtain ⟨h1, h2⟩ := isqrt_spec ⌊t⌋₊
  unfold round_even_sqrt
  generalize isqrt ⌊t⌋₊ = f at *
  have hf1 : (f : ℚ) * f ≤ t := by
    have : ((f * f : ℕ) : ℚ) ≤ (⌊t⌋₊ : ℚ) := by exact_mod_cast h1
    push_cast at this
    exact this.trans (Nat.floor_le ht)
  have hf2 : t < ((f : ℚ) + 1) * (f + 1) := by
    have : (⌊t⌋₊ : ℚ) + 1 ≤ (((f + 1) * (f + 1) : ℕ) : ℚ) := by exact_mod_cast h2
    push_cast at this
    exact (Nat.lt_floor_add_one t).trans_le this
  have hf0 : (0 : ℚ) ≤ f := Nat.cast_nonneg f
  unfold nearest_of
  split_ifs with c1 c2 c3
  · refine ⟨c1.le, ?_⟩
    by_cases hz : f = 0
    · exact Or.inl hz
    · have h1f : (1 : ℚ) ≤ f := by exact_mod_cast Nat.one_le_iff_ne_zero.2 hz
      right; nlinarith
  · push_cast
    exact ⟨by nlinarith, Or.inr (by nlinarith)⟩
  · refine ⟨not_lt.1 c2, ?_⟩
    by_cases hz : f = 0
    · exact Or.inl hz
    · have h1f : (1 : ℚ) ≤ f := by exact_mod_cast Nat.one_le_iff_ne_zero.2 hz
      right; nlinarith
  · push_cast
    exact ⟨by nlinarith, Or.inr (by nlinarith)⟩

theorem round_even_sqrt_mono (t t' : ℚ) (ht : 0 ≤ t) (h : t ≤ t') :
    round_even_sqrt t ≤ round_even_sqrt t' := by
  obtain ⟨-, a2⟩ := round_even_sqrt_spec t ht
  obtain ⟨b1, -⟩ := round_even_sqrt_spec t' (ht.trans h)
  by_contra hlt
  push_neg at hlt
  have hne : round_even_sqrt t ≠ 0 := by omega
  rcases a2 with a2 | a2
  · exact hne a2
  · have hc : (round_even_sqrt t' : ℚ) + 1 ≤ round_even_sqrt t := by exact_mod_cast hlt
    have hn : (0 : ℚ) ≤ round_even_sqrt t' := Nat.cast_nonneg _
    have hsq : (2 * (round_even_sqrt t' : ℚ) + 1) * (2 * round_even_sqrt t' + 1)
        ≤ (2 * (round_even_sqrt t : ℚ) - 1) * (2 * round_even_sqrt t - 1) := by
      apply mul_le_mul <;> linarith
    have htt : t = t' := by linarith
    subst htt
    exact lt_irrefl _ hlt

theorem round_even_sqrt_sq (m : ℕ) : round_even_sqrt ((m : ℚ) * m) = m := by
  have hm : (0 : ℚ) ≤ (m : ℚ) * m := mul_self_nonneg _
  obtain ⟨a1, a2⟩ := round_even_sqrt_spec _ hm
  generalize round_even_sqrt ((m : ℚ) * m) = n at *
  have hn : (0 : ℚ) ≤ n := Nat.cast_nonneg _
  have hm0 : (0 : ℚ) ≤ m := Nat.cast_nonneg _
  apply le_antisymm
  · rcases a2 with a2 | a2
    · omega
    · have : 2 * (n : ℚ) - 1 ≤ 2 * m := by
        by_contra hc
        push_neg at hc
        have := mul_lt_mul'' hc hc (by linarith) (by linarith)
        linarith
      have h' : 2 * (n : ℚ) < 2 * m + 2 := by linarith
      have h'' : 2 * n < 2 * m + 2 := by exact_mod_cast h'
      omega
  · have : 2 * (m : ℚ) ≤ 2 * n + 1 := by
      by_contra hc
      push_neg at hc
      have := mul_lt_mul'' hc hc (by linarith) (by linarith)
      linarith
    have h'' : 2 * m ≤ 2 * n + 1 := by exact_mod_cast this
    omega

theorem round_even_sqrt_le (t : ℚ) (ht : 0 ≤ t) (B : ℕ) (h : t < (B : ℚ) * B) :
    round_even_sqrt t ≤ B := by
  obtain ⟨-, a2⟩ := round_even_sqrt_spec t ht
  generalize round_even_sqrt t = n at *
  rcases a2 with a2 | a2
  · omega
  · have hB : (0 : ℚ) ≤ B := Nat.cast_nonneg _
    have : 2 * (n : ℚ) - 1 < 2 * B := by
      by_contra hc
      push_neg at hc
      have := mul_le_mul hc hc (by linarith) (by linarith)
      linarith
    have h' : 2 * (n : ℚ) < 2 * B + 1 := by linarith
    have h'' : 2 * n < 2 * B + 1 := by exact_mod_cast h'
    omega

theorem le_round_even_sqrt (t : ℚ) (ht : 0 ≤ t) (B : ℕ) (h : (B : ℚ) * B ≤ t) :
    B ≤ round_even_sqrt t := by
  obtain ⟨a1, -⟩ := round_even_sqrt_spec t ht
  generalize round_even_sqrt t = n at *
  have hn : (0 : ℚ) ≤ n := Nat.cast_nonneg _
  have hB : (0 : ℚ) ≤ B := Nat.cast_nonneg _
  have : 2 * (B : ℚ) ≤ 2 * n + 1 := by
    by_contra hc
    push_neg at hc
    have := mul_lt_mul'' hc hc (by linarith) (by linarith)
    linarith
  have h'' : 2 * B ≤ 2 * n + 1 := by exact_mod_cast this
  omega

theorem ulp_pos (s : ℚ) : 0 < ulp s := two_zpow_pos _

theorem two_zpow_succ_eq (s : ℚ) : (2 : ℚ) ^ (exponent s + 1) = ((2 ^ 53 : ℕ) : ℚ) * ulp s := by
  rw [ulp, show exponent s + 1 = 53 + (exponent s - 52) by ring, two_zpow_add]
  norm_num

theorem two_zpow_eq (s : ℚ) : (2 : ℚ) ^ exponent s = ((2 ^ 52 : ℕ) : ℚ) * ulp s := by
  rw [ulp, show exponent s = 52 + (exponent s - 52) by ring, two_zpow_add,
    show (52 : ℤ) + (exponent s - 52) - 52 = exponent s - 52 by ring]
  norm_num

theorem grid_value_nonneg (s : ℚ) : 0 ≤ grid_value s :=
  mul_nonneg (Nat.cast_nonneg _) (ulp_pos s).le

theorem scaled_nonneg (s : ℚ) (hs : 0 < s) : 0 ≤ s / (ulp s * ulp s) :=
  (div_pos hs (mul_pos (ulp_pos s) (ulp_pos s))).le

/-- The rounded mantissa is at most `2 ^ 53`. -/
theorem mantissa_le (s : ℚ) (hs : 0 < s) :
    round_even_sqrt (s / (ulp s * ulp s)) ≤ 2 ^ 53 := by
  obtain ⟨-, -, e3⟩ := exponent_spec s hs
  apply round_even_sqrt_le _ (scaled_nonneg s hs)
  rw [div_lt_iff₀ (mul_pos (ulp_pos s) (ulp_pos s))]
  rw [two_zpow_succ_eq] at e3
  linarith

/-- Outside the subnormal range the rounded mantissa is at least `2 ^ 52`. -/
theorem le_mantissa (s : ℚ) (hs : 0 < s) (hE : exponent s ≠ -1022) :
    2 ^ 52 ≤ round_even_sqrt (s / (ulp s * ulp s)) := by
  obtain ⟨-, e2, -⟩ := exponent_spec s hs
  rcases e2 with e2 | e2
  · exact absurd e2 hE
  · apply le_round_even_sqrt _ (scaled_nonneg s hs)
    rw [le_div_iff₀ (mul_pos (ulp_pos s) (ulp_pos s))]
    rw [two_zpow_eq] at e2
    linarith

theorem grid_value_mono (s s' : ℚ) (hs : 0 < s) (h : s ≤ s') :
    grid_value s ≤ grid_value s' := by
  have hs' : 0 < s' := hs.trans_le h
  rcases (exponent_mono s s' hs h).lt_or_eq with hlt | heq
  · have h1 : grid_value s ≤ (2 : ℚ) ^ (exponent s + 1) := by
      rw [two_zpow_succ_eq, grid_value]
      exact mul_le_mul_of_nonneg_right (by exact_mod_cast mantissa_le s hs) (ulp_pos s).le
    have h2 : (2 : ℚ) ^ exponent s' ≤ grid_value s' := by
      obtain ⟨e1, -, -⟩ := exponent_spec s hs
      rw [two_zpow_eq, grid_value]
      exact mul_le_mul_of_nonneg_right
        (by exact_mod_cast le_mantissa s' hs' (by omega)) (ulp_pos s').le
    exact h1.trans ((two_zpow_mono (by omega)).trans h2)
  · have hu : ulp s = ulp s' := by rw [ulp, ulp, heq]
    rw [grid_value, grid_value, ← hu]
    apply mul_le_mul_of_nonneg_right _ (ulp_pos s).le
    have := round_even_sqrt_mono (s / (ulp s * ulp s)) (s' / (ulp s * ulp s))
      (scaled_nonneg s hs)
      (div_le_div_of_nonneg_right h (mul_pos (ulp_pos s) (ulp_pos s)).le)
    exact_mod_cast this

theorem grid_value_idem (s : ℚ) (hs : 0 < s) (hd : 0 < grid_value s) :
    grid_value (grid_value s * grid_value s) = grid_value s := by
  obtain ⟨e1, e2, e3⟩ := exponent_spec s hs
  have hu := ulp_pos s
  have hdd : 0 < grid_value s * grid_value s := mul_pos hd hd
  have hn := mantissa_le s hs
  rcases hn.lt_or_eq with hn | hn
  · -- the value stays in the binade of `s`
    have hE : exponent (grid_value s * grid_value s) = exponent s := by
      apply exponent_unique _ hdd _ e1
      · by_cases hE : exponent s = -1022
        · exact Or.inl hE
        · right
          have hm := le_mantissa s hs hE
          have hm' : ((2 ^ 52 : ℕ) : ℚ) ≤ round_even_sqrt (s / (ulp s * ulp s)) := by
            exact_mod_cast hm
          have : (2 : ℚ) ^ exponent s ≤ grid_value s := by
            rw [two_zpow_eq, grid_value]
            exact mul_le_mul_of_nonneg_right hm' hu.le
          exact mul_le_mul this this (two_zpow_pos _).le hd.le
      · have hn' : (round_even_sqrt (s / (ulp s * ulp s)) : ℚ) < ((2 ^ 53 : ℕ) : ℚ) := by
          exact_mod_cast hn
        have : grid_value s < (2 : ℚ) ^ (exponent s + 1) := by
          rw [two_zpow_succ_eq, grid_value]
          exact mul_lt_mul_of_pos_right hn' hu
        exact mul_lt_mul'' this this hd.le hd.le
    have hu' : ulp (grid_value s * grid_value s) = ulp s := by rw [ulp, hE, ulp]
    rw [grid_value, hu']
    congr 1
    have : grid_value s * grid_value s / (ulp s * ulp s)
        = (round_even_sqrt (s / (ulp s * ulp s)) : ℚ) * round_even_sqrt (s / (ulp s * ulp s)) := by
      rw [grid_value]; field_simp; ring
    rw [this, round_even_sqrt_sq]
  · -- the mantissa rounded up to `2 ^ 53`: the value is the next power of two
    have hv : grid_value s = (2 : ℚ) ^ (exponent s + 1) := by
      rw [two_zpow_succ_eq, grid_value, hn]
    have hE : exponent (grid_value s * grid_value s) = exponent s + 1 := by
      apply exponent_unique _ hdd _ (by omega)
      · right; rw [hv]
      · rw [hv]
        have : (2 : ℚ) ^ (exponent s + 1) < 2 ^ (exponent s + 1 + 1) :=
          zpow_right_strictMono₀ (by norm_num) (by omega)
        exact mul_lt_mul'' this this (two_zpow_pos _).le (two_zpow_pos _).le
    have hu' : ulp (grid_value s * grid_value s) = 2 * ulp s := by
      rw [ulp, hE, ulp, show exponent s + 1 - 52 = 1 + (exponent s - 52) by ring, two_zpow_add]
      norm_num
    have ht : grid_value s * grid_value s / (2 * ulp s * (2 * ulp s))
        = ((2 ^ 52 : ℕ) : ℚ) * ((2 ^ 52 : ℕ) : ℚ) := by
      rw [hv, two_zpow_succ_eq]; field_simp; ring
    rw [grid_value, hu', ht, round_even_sqrt_sq, hv, two_zpow_succ_eq]
    push_cast; ring

theorem round_sqrt_mono (s s' : ℚ) (h : s ≤ s') : round_sqrt s ≤ round_sqrt s' := by
  unfold round_sqrt
  by_cases h0 : s ≤ 0
  · rw [if_pos h0]
    split_ifs
    · exact le_rfl
    · simp
    · exact (coord_fin_le_fin _ _).2 (grid_value_nonneg s')
  · have hs : 0 < s := not_le.1 h0
    have h0' : ¬ s' ≤ 0 := not_le.2 (hs.trans_le h)
    rw [if_neg h0, if_neg h0']
    have hm := grid_value_mono s s' hs h
    split_ifs with c1 c2 c2
    · exact le_rfl
    · exact absurd (c1.trans hm) c2
    · simp
    · exact (coord_fin_le_fin _ _).2 hm

theorem round_sqrt_idem (s v : ℚ) (h : round_sqrt s = Coord.fin v) :
    0 ≤ v ∧ round_sqrt (v * v) = Coord.fin v := by
  unfold round_sqrt at h
  split_ifs at h with h0 c1
  · cases h
    simp [round_sqrt]
  · cases h
    refine ⟨grid_value_nonneg s, ?_⟩
    have hs : 0 < s := not_le.1 h0
    rcases (grid_value_nonneg s).lt_or_eq with hd | hd
    · unfold round_sqrt
      rw [if_neg (not_le.2 (mul_pos hd hd)), grid_value_idem s hs hd, if_neg c1]
    · rw [← hd]; simp [round_sqrt]

theorem round_sqrt_nonneg (s : ℚ) : Coord.fin 0 ≤ round_sqrt s := by
  have := round_sqrt_mono 0 (max s 0) (le_max_right _ _)
  unfold round_sqrt
  split_ifs
  · exact le_rfl
  · simp
  · exact (coord_fin_le_fin _ _).2 (grid_value_nonneg s)

theorem coord_neg_neg (c : Coord) : c.neg.neg = c := by
  cases c <;> simp [Coord.neg]

theorem abs_coord_neg (c : Coord) : abs c.neg = abs c := by
  cases c <;> simp [Coord.neg, abs]

theorem coord_neg_le_neg {a b : Coord} (h : a ≤ b) : b.neg ≤ a.neg := by
  cases a <;> cases b <;> simp_all [Coord.neg]

theorem coord_neg_le_zero {a : Coord} (h : Coord.fin 0 ≤ a) : a.neg ≤ Coord.fin 0 := by
  cases a <;> simp_all [Coord.neg]

theorem round_zero : round 0 = Coord.fin 0 := by
  simp [round, round_sqrt]

theorem round_neg (x : ℚ) : round (-x) = (round x).neg := by
  unfold round
  rcases lt_trichotomy x 0 with h | h | h
  · rw [if_pos (by linarith), if_neg (by linarith), coord_neg_neg, neg_mul_neg]
  · subst h; simp [round_sqrt, Coord.neg]
  · rw [if_neg (by linarith), if_pos h.le, neg_mul_neg]

theorem round_nonneg {x : ℚ} (h : 0 ≤ x) : Coord.fin 0 ≤ round x := by
  unfold round; rw [if_pos h]; exact round_sqrt_nonneg _

theorem round_nonpos {x : ℚ} (h : x ≤ 0) : round x ≤ Coord.fin 0 := by
  have := round_nonneg (neg_nonneg.2 h)
  rw [round_neg] at this
  have h2 := coord_neg_le_zero this
  rwa [coord_neg_neg] at h2

theorem round_mono {x y : ℚ} (h : x ≤ y) : round x ≤ round y := by
  rcases le_total 0 x with hx | hx
  · unfold round
    rw [if_pos hx, if_pos (hx.trans h)]
    exact round_sqrt_mono _ _ (by nlinarith)
  · rcases le_total 0 y with hy | hy
    · exact (round_nonpos hx).trans (round_nonneg hy)
    · have h1 : round (-y) ≤ round (-x) := by
        unfold round
        rw [if_pos (by linarith), if_pos (by linarith)]
        exact round_sqrt_mono _ _ (by nlinarith)
      rw [round_neg, round_neg] at h1
      have h2 := coord_neg_le_neg h1
      rwa [coord_neg_neg, coord_neg_neg] at h2

/-- A rounded value is a double: the rounded square root of its square is its magnitude. -/
theorem round_sqrt_of_round (x d : ℚ) (h : round x = Coord.fin d) :
    ∃ v : ℚ, 0 ≤ v ∧ v * v = d * d ∧ round_sqrt (d * d) = Coord.fin v := by
  unfold round at h
  split_ifs at h with hx
  · obtain ⟨h1, h2⟩ := round_sqrt_idem _ _ h
    exact ⟨d, h1, rfl, h2⟩
  · rcases hr : round_sqrt (x * x) with _ | v | _
    · rw [hr] at h; simp [Coord.neg] at h
    · rw [hr] at h
      simp only [Coord.neg, Coord.fin.injEq] at h
      obtain ⟨h1, h2⟩ := round_sqrt_idem _ _ hr
      refine ⟨v, h1, by rw [← h]; ring, ?_⟩
      rw [← h, neg_mul_neg]; exact h2
    · rw [hr] at h; simp [Coord.neg] at h

/-- The distance a non-negative double stands for. -/
theorem hypot_fin (a b : ℚ) :
    hypot (Coord.fin a) (Coord.fin b) = abs (round_sqrt (a * a + b * b)) := by
  simp only [hypot]
  rcases round_sqrt (a * a + b * b) with _ | v | _ <;> rfl

theorem binary64_sound : Arith.binary64.Sound where
  sub_self c := by
    simp only [Arith.binary64, sub, sub_self]; exact round_zero
  sub_mono a a' c h := by
    simp only [Arith.binary64, sub]; exact round_mono (by linarith)
  abs_sub_comm a b := by
    simp only [Arith.binary64, sub]
    rw [← neg_sub a b, round_neg, abs_coord_neg]
  zero_le_hypot x y := by
    rcases x with _ | a | _ <;> rcases y with _ | b | _ <;>
      try (simp [Arith.binary64, hypot]; done)
    simp only [Arith.binary64]
    rw [hypot_fin]
    have := abs_le_abs_of_nonneg le_rfl (round_sqrt_nonneg (a * a + b * b))
    rwa [abs_fin, mul_zero] at this
  hypot_mono x x' y y' hx hy := by
    rcases x with _ | a | _ <;> rcases x' with _ | a' | _ <;>
      rcases y with _ | b | _ <;> rcases y' with _ | b' | _ <;>
      try (simp_all [Arith.binary64, hypot]; done)
    simp only [Arith.binary64]
    rw [hypot_fin, hypot_fin]
    simp only [abs_fin, dist_root_le_root] at hx hy
    exact abs_le_abs_of_nonneg (round_sqrt_nonneg (a * a + b * b))
      (round_sqrt_mono (a * a + b * b) (a' * a' + b' * b') (by linarith))
  le_hypot_left a b c d := by
    simp only [Arith.binary64, sub]
    rcases hx : round (a - b) with _ | x | _ <;> rcases hy : round (c - d) with _ | y | _ <;>
      try (simp [hypot]; done)
    obtain ⟨v, hv, hvv, hr⟩ := round_sqrt_of_round _ _ hx
    rw [hypot_fin]
    have := abs_le_abs_of_nonneg (round_sqrt_nonneg (x * x))
      (round_sqrt_mono (x * x) (x * x + y * y) (by nlinarith [mul_self_nonneg y]))
    rw [hr] at this
    simpa [hvv] using this
  le_hypot_right a b c d := by
    simp only [Arith.binary64, sub]
    rcases hx : round (a - b) with _ | x | _ <;> rcases hy : round (c - d) with _ | y | _ <;>
      try (simp [hypot]; done)
    obtain ⟨v, hv, hvv, hr⟩ := round_sqrt_of_round _ _ hy
    rw [hypot_fin]
    have := abs_le_abs_of_nonneg (round_sqrt_nonneg (y * y))
      (round_sqrt_mono (y * y) (x * x + y * y) (by nlinarith [mul_self_nonneg x]))
    rw [hr] at this
    simpa [hvv] using this
  sub_negInf a := rfl
  sub_posInf a := rfl
  hypot_inf_left x y h := by
    rcases x with _ | a | _ <;> rcases y with _ | b | _ <;> simp_all [Arith.binary64, hypot]
  hypot_inf_right x y h := by
    rcases x with _ | a | _ <;> rcases y with _ | b | _ <;> simp_all [Arith.binary64, hypot]

end Binary64

/-- Arithmetic over the reals is sound. -/
theorem exact_sound : Arith.exact.Sound where
  sub_self c := by simp [Arith.exact, Coord.sub]
  sub_mono a a' c h := by
    simp only [Arith.exact, Coord.sub, coord_fin_le_fin]; linarith
  abs_sub_comm a b := by
    simp only [Arith.exact, Coord.sub, abs_fin, Dist.root.injEq]; ring
  zero_le_hypot x y := by
    rcases x with _ | a | _ <;> rcases y with _ | b | _ <;> simp [Arith.exact, hypot]
    nlinarith [mul_self_nonneg a, mul_self_nonneg b]
  hypot_mono x x' y y' hx hy := by
    simp only [Arith.exact, hypot_eq_padd]; exact padd_mono hx hy
  le_hypot_left a b c d := by
    simp only [Arith.exact, Coord.sub, hypot, abs_fin, dist_root_le_root]
    nlinarith [mul_self_nonneg (c - d)]
  le_hypot_right a b c d := by
    simp only [Arith.exact, Coord.sub, hypot, abs_fin, dist_root_le_root]
    nlinarith [mul_self_nonneg (a - b)]
  sub_negInf a := rfl
  sub_posInf a := rfl
  hypot_inf_left x y h := by
    rcases x with _ | a | _ <;> rcases y with _ | b | _ <;> simp_all [Arith.exact, hypot]
  hypot_inf_right x y h := by
    rcases x with _ | a | _ <;> rcases y with _ | b | _ <;> simp_all [Arith.exact, hypot]

/-! ## Lemmas on distances over an arithmetic -/

theorem distance_with_exact (p q : Point) : p.distance_with Arith.exact q = p.distance q := rfl

theorem rect_distance_with_exact (R : Rect) (p : Point) :
    R.distance_with Arith.exact p = R.distance p := rfl

/-- Outside an interval that holds `c`, the bound of the interval on the side of `a` is
finite and, in the arithmetic, at most as far from `a` as `c` is. -/
theorem near_side (A : Arith) (hA : A.Sound) (lo hi : Coord) (a c : ℚ)
    (h₁ : lo ≤ Coord.fin c) (h₂ : Coord.fin c ≤ hi)
    (hout : ¬ (lo ≤ Coord.fin a ∧ Coord.fin a ≤ hi)) :
    (∃ l : ℚ, lo = Coord.fin l ∧
        abs (A.sub (Coord.fin l) (Coord.fin a)) ≤ abs (A.sub (Coord.fin c) (Coord.fin a))) ∨
      ∃ u : ℚ, hi = Coord.fin u ∧
        abs (A.sub (Coord.fin u) (Coord.fin a)) ≤ abs (A.sub (Coord.fin c) (Coord.fin a)) := by
  by_cases hl : lo ≤ Coord.fin a
  · have hh : ¬ Coord.fin a ≤ hi := fun h => hout ⟨hl, h⟩
    rcases hi with _ | u | _
    · exact absurd h₂ (coord_fin_le_negInf _)
    · rw [coord_fin_le_fin, not_le] at hh
      rw [coord_fin_le_fin] at h₂
      refine Or.inr ⟨u, rfl, abs_le_abs_of_nonpos ?_ (hA.sub_mono _ _ _ h₂)⟩
      rw [← hA.sub_self a]; exact hA.sub_mono _ _ _ hh.le
    · exact absurd (coord_le_posInf _) hh
  · rcases lo with _ | l | _
    · exact absurd (coord_negInf_le _) hl
    · rw [coord_fin_le_fin, not_le] at hl
      rw [coord_fin_le_fin] at h₁
      refine Or.inl ⟨l, rfl, abs_le_abs_of_nonneg ?_ (hA.sub_mono _ _ _ h₁)⟩
      rw [← hA.sub_self a]; exact hA.sub_mono _ _ _ hl.le
    · exact absurd h₁ (coord_posInf_le_fin _)

/-- In a sound arithmetic the distance from a rectangle to `q` is at most the distance to `q`
from any finite point the rectangle contains. -/
theorem rect_distance_with_le_finite (A : Arith) (hA : A.Sound) (R : Rect) (a b c d : ℚ)
    (h : R.contains (Point.ofRat c d) = true) :
    R.distance_with A (Point.ofRat a b)
      ≤ (Point.ofRat c d).distance_with A (Point.ofRat a b) := by
  obtain ⟨⟨hx₁, hx₂⟩, hy₁, hy₂⟩ := (contains_iff R _).1 h
  obtain ⟨⟨lx, ly⟩, ⟨ux, uy⟩⟩ := R
  simp only [Rect.xmin, Rect.xmax, Rect.ymin, Rect.ymax, Point.ofRat] at hx₁ hx₂ hy₁ hy₂
  simp only [Rect.distance_with, Rect.contains, Rect.xmin, Rect.xmax, Rect.ymin, Rect.ymax,
    Point.ofRat, Point.distance_with, ge_iff_le, Bool.and_eq_true, decide_eq_true_eq]
  by_cases h1 : lx ≤ Coord.fin a ∧ Coord.fin a ≤ ux <;>
    by_cases h2 : ly ≤ Coord.fin b ∧ Coord.fin b ≤ uy
  · rw [if_pos ⟨⟨h1, h2.1⟩, h2.2⟩]
    exact hA.zero_le_hypot _ _
  · rw [if_neg (fun h => h2 ⟨h.1.2, h.2⟩), if_pos h1]
    refine le_trans ?_ (hA.le_hypot_right c a d b)
    rcases near_side A hA ly uy b d hy₁ hy₂ h2 with ⟨l, rfl, hl⟩ | ⟨u, rfl, hu⟩
    · exact (min_le_left _ _).trans hl
    · exact (min_le_right _ _).trans hu
  · rw [if_neg (fun h => h1 h.1.1), if_neg h1, if_pos h2]
    refine le_trans ?_ (hA.le_hypot_left c a d b)
    rcases near_side A hA lx ux a c hx₁ hx₂ h1 with ⟨l, rfl, hl⟩ | ⟨u, rfl, hu⟩
    · exact (min_le_left _ _).trans hl
    · exact (min_le_right _ _).trans hu
  · rw [if_neg (fun h => h2 ⟨h.1.2, h.2⟩), if_neg h1, if_neg h2]
    rcases near_side A hA lx ux a c hx₁ hx₂ h1 with ⟨l, rfl, hl⟩ | ⟨u, rfl, hu⟩ <;>
      rcases near_side A hA ly uy b d hy₁ hy₂ h2 with ⟨l', rfl, hl'⟩ | ⟨u', rfl, hu'⟩
    · refine ((min_le_left _ _).trans ((min_le_left _ _).trans (min_le_left _ _))).trans ?_
      exact hA.hypot_mono _ _ _ _ (by rw [hA.abs_sub_comm]; exact hl)
        (by rw [hA.abs_sub_comm]; exact hl')
    · refine ((min_le_left _ _).trans (min_le_right _ _)).trans ?_
      exact hA.hypot_mono _ _ _ _ (by rw [hA.abs_sub_comm]; exact hl)
        (by rw [hA.abs_sub_comm]; exact hu')
    · refine (min_le_right _ _).trans ?_
      exact hA.hypot_mono _ _ _ _ (by rw [hA.abs_sub_comm]; exact hu)
        (by rw [hA.abs_sub_comm]; exact hl')
    · refine ((min_le_left _ _).trans ((min_le_left _ _).trans (min_le_right _ _))).trans ?_
      exact hA.hypot_mono _ _ _ _ (by rw [hA.abs_sub_comm]; exact hu)
        (by rw [hA.abs_sub_comm]; exact hu')

/-- In a sound arithmetic the distance to a finite point from a point with an infinite
coordinate is infinite. -/
theorem distance_with_of_not_finite (A : Arith) (hA : A.Sound) (s : Point) (a b : ℚ)
    (hs : ¬ kdtree.IsFinite s) : s.distance_with A (Point.ofRat a b) = Dist.inf := by
  obtain ⟨x, y⟩ := s
  simp only [Point.distance_with, Point.ofRat]
  rcases x with _ | x | _
  · exact hA.hypot_inf_left _ _ (by rw [hA.sub_negInf]; rfl)
  · rcases y with _ | y | _
    · exact hA.hypot_inf_right _ _ (by rw [hA.sub_negInf]; rfl)
    · exact absurd ⟨x, y, rfl⟩ hs
    · exact hA.hypot_inf_right _ _ (by rw [hA.sub_posInf]; rfl)
  · exact hA.hypot_inf_left _ _ (by rw [hA.sub_posInf]; rfl)

/-- In a sound arithmetic the distance from a rectangle to a finite point `q` is at most the
distance to `q` from any point the rectangle contains: the bound behind the pruning of
`funct_nearest`. -/
theorem rect_distance_with_le (A : Arith) (hA : A.Sound) (R : Rect) (a b : ℚ) (s : Point)
    (h : R.contains s = true) :
    R.distance_with A (Point.ofRat a b) ≤ s.distance_with A (Point.ofRat a b) := by
  by_cases hs : kdtree.IsFinite s
  · obtain ⟨c, d, rfl⟩ := hs
    exact rect_distance_with_le_finite A hA R a b c d h
  · rw [distance_with_of_not_finite A hA s a b hs]
    exact dist_le_inf _

/-- In a sound arithmetic the distance between two finite points does not depend on which
of them `Point::distance` is called on. -/
theorem distance_with_comm (A : Arith) (hA : A.Sound) (a b c d : ℚ) :
    (Point.ofRat a b).distance_with A (Point.ofRat c d)
      = (Point.ofRat c d).distance_with A (Point.ofRat a b) :=
  le_antisymm
    (hA.hypot_mono _ _ _ _ (hA.abs_sub_comm a c).le (hA.abs_sub_comm b d).le)
    (hA.hypot_mono _ _ _ _ (hA.abs_sub_comm c a).le (hA.abs_sub_comm d b).le)

namespace rbtree

/-- The loop of `rbtree::PointSet::nearest` either changes nothing, every element being
strictly farther than the start, or ends on the last element at minimum distance. -/
theorem nearest_loop_with_last_min (A : Arith) (q : Point) (L : List Point)
    (best : Dist × Point) :
    (nearest_loop_with A q L best = best ∧ ∀ x ∈ L, best.1 < q.distance_with A x) ∨
      ∃ pre post, L = pre ++ (nearest_loop_with A q L best).2 :: post ∧
        (nearest_loop_with A q L best).1
          = q.distance_with A (nearest_loop_with A q L best).2 ∧
        (nearest_loop_with A q L best).1 ≤ best.1 ∧
        (∀ x ∈ pre, (nearest_loop_with A q L best).1 ≤ q.distance_with A x) ∧
        (∀ x ∈ post, (nearest_loop_with A q L best).1 < q.distance_with A x) := by
  induction L generalizing best with
  | nil => left; simp [nearest_loop_with]
  | cons x xs ih =>
    obtain ⟨d₀, p₀⟩ := best
    simp only [nearest_loop_with]
    split_ifs with h
    · right
      rcases ih (q.distance_with A x, x) with ⟨h1, h2⟩ | ⟨pre, post, h1, h2, h3, h4, h5⟩
      · refine ⟨[], xs, ?_, ?_, ?_, ?_, ?_⟩
        · rw [h1]; rfl
        · rw [h1]
        · rw [h1]; exact h
        · simp
        · rw [h1]; exact h2
      · refine ⟨x :: pre, post, ?_, h2, h3.trans h, ?_, h5⟩
        · rw [List.cons_append, ← h1]
        · intro y hy
          rcases List.mem_cons.1 hy with rfl | hy
          · exact h3
          · exact h4 y hy
    · have h' : d₀ < q.distance_with A x := not_le.1 h
      rcases ih (d₀, p₀) with ⟨h1, h2⟩ | ⟨pre, post, h1, h2, h3, h4, h5⟩
      · left
        refine ⟨h1, fun y hy => ?_⟩
        rcases List.mem_cons.1 hy with rfl | hy
        · exact h'
        · exact h2 y hy
      · right
        refine ⟨x :: pre, post, ?_, h2, h3, ?_, h5⟩
        · rw [List.cons_append, ← h1]
        · intro y hy
          rcases List.mem_cons.1 hy with rfl | hy
          · exact (h3.trans_lt h').le
          · exact h4 y hy

/-- What `rbtree::PointSet::nearest` returns on a non-empty set: an element of the set at
minimum distance, every element before it at least as far, every element after it
strictly farther. -/
theorem rb_nearest_with_spec (A : Arith) (t : PointSet) (q : Point) (hne : t.set_rbtree ≠ []) :
    ∃ m pre post, t.nearest_with A q = some m ∧ t.set_rbtree = pre ++ m :: post ∧
      (∀ x ∈ pre, q.distance_with A m ≤ q.distance_with A x) ∧
      (∀ x ∈ post, q.distance_with A m < q.distance_with A x) := by
  obtain ⟨L⟩ := t
  cases L with
  | nil => exact absurd rfl hne
  | cons f rest =>
    simp only [PointSet.nearest_with]
    rcases nearest_loop_with_last_min A q (f :: rest) (q.distance_with A f, f) with
      ⟨-, h2⟩ | ⟨pre, post, h1, h2, -, h4, h5⟩
    · exact absurd (h2 f (List.mem_cons_self _ _)) (lt_irrefl _)
    · exact ⟨_, pre, post, rfl, h1, fun x hx => h2 ▸ h4 x hx, fun x hx => h2 ▸ h5 x hx⟩

end rbtree

namespace kdtree

theorem funct_nearest_with_exact (r : Rect) (q : Point) (S : List Point) (n : Node)
    (best : Dist × Point) :
    funct_nearest_with Arith.exact r q S n best = funct_nearest r q S n best := by
  induction n generalizing r best with
  | null => rfl
  | mk v l rt sz rate ihl ihr =>
    obtain ⟨m, mp⟩ := best
    simp only [funct_nearest_with, funct_nearest, distance_with_exact,
      rect_distance_with_exact, ihl, ihr]

theorem kd_nearest_with_exact (t : PointSet) (q : Point) :
    t.nearest_with Arith.exact q = t.nearest q := by
  simp only [PointSet.nearest_with, PointSet.nearest, funct_nearest_with_exact]

theorem scan_nearest_with_append (A : Arith) (q : Point) (S L₁ L₂ : List Point)
    (best : Dist × Point) :
    scan_nearest_with A q S (L₁ ++ L₂) best
      = scan_nearest_with A q S L₂ (scan_nearest_with A q S L₁ best) := by
  induction L₁ generalizing best with
  | nil => rfl
  | cons x xs ih =>
    obtain ⟨m, mp⟩ := best
    rw [List.cons_append]
    simp only [scan_nearest_with]
    exact ih _

theorem scan_nearest_with_unchanged (A : Arith) (q : Point) (S L : List Point)
    (best : Dist × Point)
    (h : ∀ x ∈ L, set_find x S = false → best.1 ≤ x.distance_with A q) :
    scan_nearest_with A q S L best = best := by
  induction L generalizing best with
  | nil => rfl
  | cons x xs ih =>
    obtain ⟨m, mp⟩ := best
    simp only [scan_nearest_with]
    have hx := h x (List.mem_cons_self _ _)
    have hif : (!set_find x S && decide (x.distance_with A q < m)) = false := by
      cases hS : set_find x S
      · simpa using hx hS
      · simp
    rw [hif]
    exact ih (m, mp) fun y hy => h y (List.mem_cons_of_mem _ hy)

/-- On a subtree whose points lie in the rectangle passed with it, `funct_nearest` with its
pruning ends like the plain scan of the subtree in pre-order, in every sound arithmetic. -/
theorem funct_nearest_with_eq_scan (A : Arith) (hA : A.Sound) (q : Point) (hq : IsFinite q)
    (S : List Point) (n : Node) (r : Rect) (best : Dist × Point) (hb : Bounded r n) :
    funct_nearest_with A r q S n best = scan_nearest_with A q S (iterate n) best := by
  induction n generalizing r best with
  | null => rfl
  | mk v l rt sz rate ihl ihr =>
    obtain ⟨m, mp⟩ := best
    simp only [funct_nearest_with]
    by_cases hpr : r.distance_with A q ≥ m
    · rw [if_pos hpr]
      symm
      apply scan_nearest_with_unchanged
      intro s hs _
      obtain ⟨a, b, rfl⟩ := hq
      have hc := bounded_contains (Node.mk v l rt sz rate) r hb _ hs
      exact hpr.trans (rect_distance_with_le A hA r a b s hc)
    · rw [if_neg hpr]
      rw [ihl _ _ hb.2.1, ihr _ _ hb.2.2]
      simp only [iterate, scan_nearest_with, scan_nearest_with_append]

/-- The plain scan either changes nothing, no point being strictly closer than the start,
or ends on the first point at minimum distance. -/
theorem scan_nearest_with_first_min (A : Arith) (q : Point) (L : List Point)
    (best : Dist × Point) :
    (scan_nearest_with A q [] L best = best ∧ ∀ x ∈ L, best.1 ≤ x.distance_with A q) ∨
      ∃ pre post, L = pre ++ (scan_nearest_with A q [] L best).2 :: post ∧
        (scan_nearest_with A q [] L best).1
          = (scan_nearest_with A q [] L best).2.distance_with A q ∧
        (scan_nearest_with A q [] L best).1 < best.1 ∧
        (∀ x ∈ pre, (scan_nearest_with A q [] L best).1 < x.distance_with A q) ∧
        (∀ x ∈ post, (scan_nearest_with A q [] L best).1 ≤ x.distance_with A q) := by
  induction L generalizing best with
  | nil => left; simp [scan_nearest_with]
  | cons x xs ih =>
    obtain ⟨d₀, p₀⟩ := best
    simp only [scan_nearest_with, set_find, List.any_nil, Bool.not_false, Bool.true_and]
    by_cases h : x.distance_with A q < d₀
    · simp only [h, decide_True, if_true]
      right
      rcases ih (x.distance_with A q, x) with ⟨h1, h2⟩ | ⟨pre, post, h1, h2, h3, h4, h5⟩
      · refine ⟨[], xs, ?_, ?_, ?_, ?_, ?_⟩
        · rw [h1]; rfl
        · rw [h1]
        · rw [h1]; exact h
        · simp
        · rw [h1]; exact h2
      · refine ⟨x :: pre, post, ?_, h2, h3.trans h, ?_, h5⟩
        · rw [List.cons_append, ← h1]
        · intro y hy
          rcases List.mem_cons.1 hy with rfl | hy
          · exact h3
          · exact h4 y hy
    · simp only [h, decide_False, Bool.false_eq_true, if_false]
      have h' : d₀ ≤ x.distance_with A q := not_lt.1 h
      rcases ih (d₀, p₀) with ⟨h1, h2⟩ | ⟨pre, post, h1, h2, h3, h4, h5⟩
      · left
        refine ⟨h1, fun y hy => ?_⟩
        rcases List.mem_cons.1 hy with rfl | hy
        · exact h'
        · exact h2 y hy
      · right
        refine ⟨x :: pre, post, ?_, h2, h3, ?_, h5⟩
        · rw [List.cons_append, ← h1]
        · intro y hy
          rcases List.mem_cons.1 hy with rfl | hy
          · exact h3.trans_le h'
          · exact h4 y hy

/-- What `kdtree::PointSet::nearest` returns at a finite query point on the tree built from
a list of points, in every sound arithmetic: the point (INF, INF) when the distance of every
stored point is infinite, and otherwise the first point in pre-order at minimum distance. -/
theorem kd_nearest_with_spec (A : Arith) (hA : A.Sound) (ps : List Point) (a b : ℚ) :
    ((fromList ps).nearest_with A (Point.ofRat a b) = some ⟨INF, INF⟩ ∧
        ∀ s ∈ ps, s.distance_with A (Point.ofRat a b) = Dist.inf) ∨
    ∃ m pre post,
      (fromList ps).nearest_with A (Point.ofRat a b) = some m ∧
      (fromList ps).points = pre ++ m :: post ∧
      (∀ x ∈ pre, m.distance_with A (Point.ofRat a b) < x.distance_with A (Point.ofRat a b)) ∧
      (∀ x ∈ post,
        m.distance_with A (Point.ofRat a b) ≤ x.distance_with A (Point.ofRat a b)) := by
  have heq := funct_nearest_with_eq_scan A hA (Point.ofRat a b) ⟨a, b, rfl⟩ []
    (fromList ps).Root Rect.plane (Dist.inf, ⟨INF, INF⟩) (bounded_fromList _)
  rcases scan_nearest_with_first_min A (Point.ofRat a b)
    (iterate (fromList ps).Root) (Dist.inf, ⟨INF, INF⟩)
    with ⟨h1, h2⟩ | ⟨pre, post, h1, h2, -, h4, h5⟩
  · left
    refine ⟨by rw [PointSet.nearest_with, heq, h1], fun s hs => ?_⟩
    have := h2 _ ((mem_points_fromList _ _).2 hs)
    exact le_antisymm (dist_le_inf _) this
  · right
    refine ⟨_, pre, post, ?_, h1, fun x hx => h2 ▸ h4 x hx, fun x hx => h2 ▸ h5 x hx⟩
    rw [PointSet.nearest_with, heq]

end kdtree

/-! ## Theorems -/

open kdtree

/-- C1, evaluated on the code: after `put` of (6,0), (4,0), (4,2), (5,10), the query
rectangle [0,20] × [1,20] contains the stored point (5,10), yet `range` yields only (4,2):
the subtree of (5,10) has the implicit rectangle [4,6] × [0,+∞), which crosses the query
rectangle without either holding a corner of the other, so `Rect::intersects` answers
`false` and `funct` prunes it. -/
theorem range_misses_contained_point :
    (fromList [Point.ofRat 6 0, Point.ofRat 4 0, Point.ofRat 4 2, Point.ofRat 5 10]).range
        ⟨Point.ofRat 0 1, Point.ofRat 20 20⟩ = [Point.ofRat 4 2]
      ∧ (fromList [Point.ofRat 6 0, Point.ofRat 4 0, Point.ofRat 4 2, Point.ofRat 5 10]).contains
        (Point.ofRat 5 10) = true
      ∧ Rect.contains ⟨Point.ofRat 0 1, Point.ofRat 20 20⟩ (Point.ofRat 5 10) = true := by
  decide

/-- C3: for every sequence `ps` of points put one by one into an empty set and every point
`p`, `contains (p)` is true if and only if `p` is equal, coordinate by coordinate, to a
point of `ps`. -/
theorem contains_iff_inserted (ps : List Point) (p : Point) :
    (fromList ps).contains p = true ↔ p ∈ ps := by
  rw [fromList, contains_foldl_put]
  simp [PointSet.contains, PointSet.empty]

/-- C4, evaluated on the code: after `put` of (0,0), (1,1), (1,1) the set holds two distinct
points and `size ()` is 3: the second `put` of (1,1) adds one to the root's counter before
it meets the equal node. -/
theorem size_counts_repeated_put :
    (fromList [Point.ofRat 0 0, Point.ofRat 1 1, Point.ofRat 1 1]).size = 3
      ∧ [Point.ofRat 0 0, Point.ofRat 1 1, Point.ofRat 1 1].dedup.length = 2 := by
  decide

/-- C5, evaluated on the code: in the set built from (0,0), (1,1) the point (1,1) is
contained, and `put` of (1,1) changes the tree: `size ()` goes from 2 to 3. -/
theorem put_of_contained_point_changes_tree :
    (fromList [Point.ofRat 0 0, Point.ofRat 1 1]).contains (Point.ofRat 1 1) = true
      ∧ (fromList [Point.ofRat 0 0, Point.ofRat 1 1]).size = 2
      ∧ ((fromList [Point.ofRat 0 0, Point.ofRat 1 1]).put (Point.ofRat 1 1)).size = 3
      ∧ (fromList [Point.ofRat 0 0, Point.ofRat 1 1]).put (Point.ofRat 1 1)
        ≠ fromList [Point.ofRat 0 0, Point.ofRat 1 1] := by
  decide

/-- C6, evaluated on the code: on the empty set `nearest (q)` is an engaged optional holding
the point (INF, INF), for every query point `q`. -/
theorem nearest_on_empty_set_returns_point (q : Point) :
    PointSet.nearest ⟨Node.null⟩ q = some ⟨INF, INF⟩ := by
  rfl

/-- C7, evaluated on the code: after `put` of (0,0), (1,1), (1,1), (1,1), `size ()` is 4 and
`nearest (q, 4)` at q = (0,0) yields three points, the third being (INF, INF). -/
theorem nearest_k_yields_fewer_points :
    (fromList [Point.ofRat 0 0, Point.ofRat 1 1, Point.ofRat 1 1, Point.ofRat 1 1]).size = 4
      ∧ (fromList [Point.ofRat 0 0, Point.ofRat 1 1, Point.ofRat 1 1, Point.ofRat 1 1]).nearest_k
          (Point.ofRat 0 0) 4
        = [Point.ofRat 0 0, Point.ofRat 1 1, ⟨INF, INF⟩] := by
  decide!

/-- C8, evaluated on the code: after `put` of (0,0), (1,1), (1,1), `nearest (q, 3)` at
q = (0,0) yields (0,0), (1,1) and (INF, INF), and (INF, INF) is not stored in the tree. -/
theorem nearest_k_yields_point_not_stored :
    (fromList [Point.ofRat 0 0, Point.ofRat 1 1, Point.ofRat 1 1]).nearest_k (Point.ofRat 0 0) 3
        = [Point.ofRat 0 0, Point.ofRat 1 1, ⟨INF, INF⟩]
      ∧ (fromList [Point.ofRat 0 0, Point.ofRat 1 1, Point.ofRat 1 1]).contains ⟨INF, INF⟩
        = false := by
  decide!

/-- C9, evaluated on the code: the rectangles [0,3] × [1,2] and [1,2] × [0,3] overlap on
both axes, and `intersects` answers `false` in both directions. -/
theorem intersects_false_on_crossing_rectangles :
    Rect.intersects ⟨Point.ofRat 0 1, Point.ofRat 3 2⟩ ⟨Point.ofRat 1 0, Point.ofRat 2 3⟩ = false
      ∧ Rect.intersects
          ⟨Point.ofRat 1 0, Point.ofRat 2 3⟩ ⟨Point.ofRat 0 1, Point.ofRat 3 2⟩ = false
      ∧ Rect.xmin ⟨Point.ofRat 0 1, Point.ofRat 3 2⟩ ≤ Rect.xmax ⟨Point.ofRat 1 0, Point.ofRat 2 3⟩
      ∧ Rect.xmin ⟨Point.ofRat 1 0, Point.ofRat 2 3⟩ ≤ Rect.xmax ⟨Point.ofRat 0 1, Point.ofRat 3 2⟩
      ∧ Rect.ymin ⟨Point.ofRat 0 1, Point.ofRat 3 2⟩ ≤ Rect.ymax ⟨Point.ofRat 1 0, Point.ofRat 2 3⟩
      ∧ Rect.ymin ⟨Point.ofRat 1 0, Point.ofRat 2 3⟩
          ≤ Rect.ymax ⟨Point.ofRat 0 1, Point.ofRat 3 2⟩ := by
  decide

/-- C10: for a rectangle `R` with low ≤ high on both axes and a finite point `p = (a, b)`,
`Rect::distance (p)` is `sqrt (dx^2 + dy^2)` with `dx = max (xmin - a, 0, a - xmax)` and
`dy = max (ymin - b, 0, b - ymax)`; it is 0 exactly when `R` contains `p`; it is the gap on
`y` when `a` is inside the x-span and the gap on `x` when `b` is inside the y-span; it is at
most the distance from `p` to any finite point contained in `R`, and when finite it is the
distance from `p` to some point contained in `R`. -/
theorem rect_distance_is_min_distance (R : Rect) (a b : ℚ)
    (hx : R.xmin ≤ R.xmax) (hy : R.ymin ≤ R.ymax) :
    R.distance (Point.ofRat a b)
        = hypot (gap R.xmin R.xmax (Coord.fin a)) (gap R.ymin R.ymax (Coord.fin b))
      ∧ (R.distance (Point.ofRat a b) = Dist.root 0 ↔ R.contains (Point.ofRat a b) = true)
      ∧ (R.xmin ≤ Coord.fin a ∧ Coord.fin a ≤ R.xmax →
          R.distance (Point.ofRat a b) = abs (gap R.ymin R.ymax (Coord.fin b)))
      ∧ (R.ymin ≤ Coord.fin b ∧ Coord.fin b ≤ R.ymax →
          R.distance (Point.ofRat a b) = abs (gap R.xmin R.xmax (Coord.fin a)))
      ∧ (∀ c d : ℚ, R.contains (Point.ofRat c d) = true →
          R.distance (Point.ofRat a b) ≤ (Point.ofRat a b).distance (Point.ofRat c d))
      ∧ (∀ s : ℚ, R.distance (Point.ofRat a b) = Dist.root s →
          ∃ c d : ℚ, R.contains (Point.ofRat c d) = true ∧
            (Point.ofRat a b).distance (Point.ofRat c d) = Dist.root s) := by
  have hf := distance_eq_formula R a b hx hy
  refine ⟨hf, distance_eq_zero_iff R a b hx hy, ?_, ?_, rect_distance_le R a b, ?_⟩
  · intro h
    rw [hf, Rect.distance_formula, hypot_eq_padd]
    simp only [Point.ofRat]
    rw [gap_of_inside _ _ _ h.1 h.2]
    simp [dist_padd_zero_left]
  · intro h
    rw [hf, Rect.distance_formula, hypot_eq_padd]
    simp only [Point.ofRat]
    rw [gap_of_inside _ _ _ h.1 h.2]
    simp [dist_padd_zero_right]
  · intro s hs
    rw [hf, Rect.distance_formula] at hs
    simp only [Point.ofRat] at hs
    rcases hgx : gap R.xmin R.xmax (Coord.fin a) with _ | g₁ | _ <;>
      rcases hgy : gap R.ymin R.ymax (Coord.fin b) with _ | g₂ | _ <;>
      rw [hgx, hgy] at hs <;> simp [hypot] at hs
    obtain ⟨c, hc₁, hc₂, hc⟩ := gap_attained _ _ a g₁ hx hgx
    obtain ⟨d, hd₁, hd₂, hd⟩ := gap_attained _ _ b g₂ hy hgy
    refine ⟨c, d, (contains_iff R _).2 ⟨⟨hc₁, hc₂⟩, hd₁, hd₂⟩, ?_⟩
    simp [Point.distance, Point.ofRat, hypot, hc, hd, hs]

/-- The theorem of C10 at the rectangle [0,2] × [0,1] and the point (5,5). -/
theorem rect_distance_is_min_distance_witness :
    Rect.xmin ⟨Point.ofRat 0 0, Point.ofRat 2 1⟩ ≤ Rect.xmax ⟨Point.ofRat 0 0, Point.ofRat 2 1⟩
      ∧ Rect.ymin ⟨Point.ofRat 0 0, Point.ofRat 2 1⟩ ≤ Rect.ymax ⟨Point.ofRat 0 0, Point.ofRat 2 1⟩
      ∧ Rect.distance ⟨Point.ofRat 0 0, Point.ofRat 2 1⟩ (Point.ofRat 5 5)
        = hypot (gap (Coord.fin 0) (Coord.fin 2) (Coord.fin 5))
            (gap (Coord.fin 0) (Coord.fin 1) (Coord.fin 5)) :=
  ⟨by decide, by decide,
    (rect_distance_is_min_distance ⟨Point.ofRat 0 0, Point.ofRat 2 1⟩ 5 5
      (by decide) (by decide)).1⟩

/-- The counterexample of C11: in double arithmetic, in the set holding (0,1) and (1,0),
both at distance 1 from the query (0,0), `rbtree::PointSet::nearest` returns (1,0), although
(0,1) is earlier in ascending Point order. And in the set holding (1e8,0) and (1e8,1),
`nearest` at the query (0,0) returns (1e8,1), although (1e8,0) is strictly closer in exact
distance: `std::hypot (1e8, 1)` rounds to 1e8, and `>=` lets the later point replace the
earlier one. -/
theorem rb_nearest_returns_later_tied_point :
    (rbtree.fromList [Point.ofRat 0 1, Point.ofRat 1 0]).nearest_with Arith.binary64
        (Point.ofRat 0 0) = some (Point.ofRat 1 0)
      ∧ (rbtree.fromList [Point.ofRat 0 1, Point.ofRat 1 0]).set_rbtree
        = [Point.ofRat 0 1, Point.ofRat 1 0]
      ∧ (Point.ofRat 0 0).distance (Point.ofRat 0 1)
        = (Point.ofRat 0 0).distance (Point.ofRat 1 0)
      ∧ (Point.ofRat 0 1).lt (Point.ofRat 1 0) = true
      ∧ (rbtree.fromList [Point.ofRat 100000000 0, Point.ofRat 100000000 1]).nearest_with
        Arith.binary64 (Point.ofRat 0 0) = some (Point.ofRat 100000000 1)
      ∧ (rbtree.fromList [Point.ofRat 100000000 0, Point.ofRat 100000000 1]).set_rbtree
        = [Point.ofRat 100000000 0, Point.ofRat 100000000 1]
      ∧ (Point.ofRat 0 0).distance (Point.ofRat 100000000 0)
        < (Point.ofRat 0 0).distance (Point.ofRat 100000000 1) := by
  decide!

/-- C11, as amended: for every non-empty list `ps` of points put into an
`rbtree::PointSet` and every finite query point `q = (a, b)`, `nearest (q)` returns a point
`m` of `ps` whose distance from `q`, as `Point::distance` computes it in double arithmetic,
is the least among the points of `ps`, and among the stored points at that computed distance
it is the latest in ascending Point order: it is before none of them. -/
theorem rb_nearest_is_last_closest (ps : List Point) (hne : ps ≠ []) (a b : ℚ) :
    ∃ m ∈ ps,
      (rbtree.fromList ps).nearest_with Arith.binary64 (Point.ofRat a b) = some m
      ∧ (∀ s ∈ ps,
          (Point.ofRat a b).distance_with Arith.binary64 m
            ≤ (Point.ofRat a b).distance_with Arith.binary64 s)
      ∧ (∀ s ∈ ps,
          (Point.ofRat a b).distance_with Arith.binary64 s
              = (Point.ofRat a b).distance_with Arith.binary64 m →
            m.lt s = false) := by
  obtain ⟨hsorted, hmem⟩ := rbtree.rb_fromList ps
  obtain ⟨s₀, hs₀⟩ := List.exists_mem_of_ne_nil ps hne
  have hne' : (rbtree.fromList ps).set_rbtree ≠ [] :=
    List.ne_nil_of_mem ((hmem _).2 hs₀)
  obtain ⟨m, pre, post, h1, h2, h3, h4⟩ :=
    rbtree.rb_nearest_with_spec Arith.binary64 _ (Point.ofRat a b) hne'
  have hm : m ∈ (rbtree.fromList ps).set_rbtree := by
    rw [h2]; simp
  rw [h2, List.pairwise_append, List.pairwise_cons] at hsorted
  refine ⟨m, (hmem m).1 hm, h1, ?_, ?_⟩
  · intro s hs
    have hs' : s ∈ pre ++ m :: post := by
      rw [← h2]; exact (hmem _).2 hs
    rcases List.mem_append.1 hs' with h | h
    · exact h3 _ h
    · rcases List.mem_cons.1 h with h | h
      · rw [h]
      · exact (h4 _ h).le
  · intro s hs heq
    have hs' : s ∈ pre ++ m :: post := by
      rw [← h2]; exact (hmem _).2 hs
    rcases List.mem_append.1 hs' with h | h
    · exact point_lt_asymm _ _ (hsorted.2.2 _ h _ (List.mem_cons_self _ _))
    · rcases List.mem_cons.1 h with h | h
      · rw [h]; exact point_lt_irrefl _
      · exact absurd heq (ne_of_gt (h4 _ h))

/-- The theorem of C11 at the points (0,1), (1,0) and the query (0,0): both points are at
distance 1, and `nearest` returns (1,0), the later one. -/
theorem rb_nearest_is_last_closest_witness :
    [Point.ofRat 0 1, Point.ofRat 1 0] ≠ [] ∧
    (∃ m ∈ [Point.ofRat 0 1, Point.ofRat 1 0],
      (rbtree.fromList [Point.ofRat 0 1, Point.ofRat 1 0]).nearest_with Arith.binary64
          (Point.ofRat 0 0) = some m
      ∧ (∀ s ∈ [Point.ofRat 0 1, Point.ofRat 1 0],
          (Point.ofRat 0 0).distance_with Arith.binary64 m
            ≤ (Point.ofRat 0 0).distance_with Arith.binary64 s)
      ∧ (∀ s ∈ [Point.ofRat 0 1, Point.ofRat 1 0],
          (Point.ofRat 0 0).distance_with Arith.binary64 s
              = (Point.ofRat 0 0).distance_with Arith.binary64 m →
            m.lt s = false)) ∧
    (rbtree.fromList [Point.ofRat 0 1, Point.ofRat 1 0]).nearest_with Arith.binary64
        (Point.ofRat 0 0) = some (Point.ofRat 1 0) ∧
    (Point.ofRat 0 0).distance_with Arith.binary64 (Point.ofRat 0 1)
      = (Point.ofRat 0 0).distance_with Arith.binary64 (Point.ofRat 1 0) :=
  ⟨by decide, rb_nearest_is_last_closest [Point.ofRat 0 1, Point.ofRat 1 0] (by decide) 0 0,
    by decide!, by decide!⟩

/-- C14: `Point::operator<` is the lexicographic strict order, `x` first and then `y`: it is
irreflexive and transitive, and of `a < b`, `a == b`, `b < a` exactly one holds; `==` is
equality of both coordinates, `>` is the converse of `<`, and `<=`, `>=`, `!=` are the
negations of `>`, `<`, `==`. It holds for all points of the model, those with finite
coordinates among them. -/
theorem point_order_is_lexicographic (a b c : Point) :
    (a.lt b = true ↔ a.x < b.x ∨ (a.x = b.x ∧ a.y < b.y))
      ∧ a.lt a = false
      ∧ (a.lt b = true → b.lt c = true → a.lt c = true)
      ∧ ((a.lt b = true ∧ a.eq b = false ∧ b.lt a = false)
          ∨ (a.lt b = false ∧ a.eq b = true ∧ b.lt a = false)
          ∨ (a.lt b = false ∧ a.eq b = false ∧ b.lt a = true))
      ∧ (a.eq b = true ↔ a.x = b.x ∧ a.y = b.y)
      ∧ a.gt b = b.lt a
      ∧ a.le b = !a.gt b
      ∧ a.ge b = !a.lt b
      ∧ a.ne b = !a.eq b := by
  refine ⟨point_lt_iff a b, point_lt_irrefl a, point_lt_trans a b c, ?_, ?_, ?_, rfl, rfl, rfl⟩
  · by_cases h₁ : a.lt b = true
    · left
      refine ⟨h₁, ?_, point_lt_asymm a b h₁⟩
      rw [← Bool.not_eq_true, point_eq_iff]
      rintro rfl
      rw [point_lt_irrefl] at h₁
      exact Bool.false_ne_true h₁
    · rw [Bool.not_eq_true] at h₁
      by_cases h₂ : b.lt a = true
      · right; right
        refine ⟨h₁, ?_, h₂⟩
        rw [← Bool.not_eq_true, point_eq_iff]
        rintro rfl
        rw [point_lt_irrefl] at h₂
        exact Bool.false_ne_true h₂
      · rw [Bool.not_eq_true] at h₂
        right; left
        exact ⟨h₁, (point_eq_iff a b).2 (point_eq_of_not_lt a b h₁ h₂), h₂⟩
  · rw [point_eq_iff]
    obtain ⟨ax, ay⟩ := a
    obtain ⟨bx, b₂⟩ := b
    simp
  · simp only [Point.gt, Point.lt, gt_iff_lt]
    by_cases h : a.x = b.x
    · simp [h]
    · have h' : ¬ b.x = a.x := fun e => h e.symm
      simp [h, h']

/-- C15: after `put` of (2,3), (4,2), (4,5), (1,1) in this order on an empty set,
`range (Rect ((0,0), (4,4)))` yields exactly the sequence (1,1), (2,3), (4,2). -/
theorem range_concrete_scenario :
    (fromList [Point.ofRat 2 3, Point.ofRat 4 2, Point.ofRat 4 5, Point.ofRat 1 1]).range
        ⟨Point.ofRat 0 0, Point.ofRat 4 4⟩
      = [Point.ofRat 1 1, Point.ofRat 2 3, Point.ofRat 4 2] := by
  decide

/-- C16: in the tree built by `put` of any points into an empty set, at every node the
points of the left subtree are strictly below the node's value on the node's axis and the
points of the right subtree are at or above it; and every point stored in a subtree is
contained in the rectangle `funct` and `funct_nearest` pass down for that subtree, starting
from the whole plane at the root. -/
theorem subtree_points_in_passed_rectangle (ps : List Point) :
    Split (fromList ps).Root ∧ Enclosed Rect.plane (fromList ps).Root :=
  ⟨split_foldl_put ps ⟨Node.null⟩ trivial trivial,
    enclosed_of_bounded _ _ (bounded_fromList ps)⟩

/-- C17: in the tree built by `put` of any points into an empty set, a node at depth `d` has
rate `d % 2`; hence every rate is 0 or 1, every child has the opposite rate of its parent,
and the root, when there is one, has rate 0. -/
theorem rates_alternate_with_depth (ps : List Point) :
    RatesFrom 0 (fromList ps).Root
      ∧ Alternates (fromList ps).Root
      ∧ ∀ v l r size rate, (fromList ps).Root = Node.mk v l r size rate → rate = 0 := by
  refine ⟨ratesFrom_fromList ps, alternates_of_ratesFrom 0 _ (ratesFrom_fromList ps), ?_⟩
  intro v l r size rate h
  have := ratesFrom_fromList ps
  rw [h] at this
  exact this.1

/-- C18: for pairwise distinct points put one by one into an empty set, every node's cached
`size` is 1 plus the cached sizes of its present children and is the number of nodes of its
subtree; the stored points are the inserted points, each once; the tree has as many nodes as
points were inserted; and `size ()` is the length of the sequence. -/
theorem sizes_under_distinct_puts (ps : List Point) (hnd : ps.Nodup) :
    SizesOk (fromList ps).Root
      ∧ (fromList ps).points.Perm ps
      ∧ (fromList ps).Root.count = ps.length
      ∧ (fromList ps).size = ps.length := by
  obtain ⟨h1, h2, h3, h4⟩ := sizes_foldl_put ps ⟨Node.null⟩ hnd
    (by simp [PointSet.points, iterate]) trivial
  refine ⟨h1, ?_, ?_, ?_⟩
  · simpa [PointSet.points, iterate] using h4
  · simpa [Node.count] using h3
  · rw [size_eq_cached]; simpa [Node.cached] using h2

/-- The theorem of C18 at the points (2,3), (4,2), (4,5), (1,1). -/
theorem sizes_under_distinct_puts_witness :
    [Point.ofRat 2 3, Point.ofRat 4 2, Point.ofRat 4 5, Point.ofRat 1 1].Nodup
      ∧ SizesOk (fromList [Point.ofRat 2 3, Point.ofRat 4 2, Point.ofRat 4 5,
          Point.ofRat 1 1]).Root
      ∧ (fromList [Point.ofRat 2 3, Point.ofRat 4 2, Point.ofRat 4 5,
          Point.ofRat 1 1]).points.Perm
          [Point.ofRat 2 3, Point.ofRat 4 2, Point.ofRat 4 5, Point.ofRat 1 1]
      ∧ (fromList [Point.ofRat 2 3, Point.ofRat 4 2, Point.ofRat 4 5,
          Point.ofRat 1 1]).Root.count = 4
      ∧ (fromList [Point.ofRat 2 3, Point.ofRat 4 2, Point.ofRat 4 5,
          Point.ofRat 1 1]).size = 4 :=
  ⟨by decide, sizes_under_distinct_puts
    [Point.ofRat 2 3, Point.ofRat 4 2, Point.ofRat 4 5, Point.ofRat 1 1] (by decide)⟩

/-- C19: for every kd-tree `t` (those built by `put` among them) and every rectangle `r`,
each point `range (r)` yields is stored in the tree and contained in `r`, and no point is
yielded twice; the same holds with the test `r.intersects (rect_of_tree)` of `funct`
replaced by any test at all, `range_with Rect.intersects` being `range` itself. -/
theorem range_is_sound (t : PointSet) (r : Rect) :
    (∀ p ∈ t.range r, p ∈ t.points ∧ r.contains p = true)
      ∧ (t.range r).Nodup
      ∧ (∀ test : Rect → Rect → Bool,
          (∀ p ∈ t.range_with test r, p ∈ t.points ∧ r.contains p = true)
            ∧ (t.range_with test r).Nodup)
      ∧ t.range_with Rect.intersects r = t.range r := by
  have key : ∀ test : Rect → Rect → Bool,
      (∀ p ∈ t.range_with test r, p ∈ t.points ∧ r.contains p = true)
        ∧ (t.range_with test r).Nodup := by
    intro test
    rw [range_with_eq]
    constructor
    · intro p hp
      rcases mem_funct_with test [] r Rect.plane t.Root p hp with h | h
      · simp at h
      · exact h
    · exact nodup_of_pairwise_lt _
        (pairwise_funct_with test [] r Rect.plane t.Root List.Pairwise.nil)
  refine ⟨?_, ?_, key, (range_eq_range_with t r).symm⟩
  · rw [range_eq_range_with]; exact (key _).1
  · rw [range_eq_range_with]; exact (key _).2

/-- C20: for rectangles `a` and `b` with low ≤ high on both axes, `a.intersects (b)` is true
exactly when a corner of one rectangle is contained in the other; when `a` contains the
corner `(xmax, ymax)` of `b` that the first test leaves out, another test succeeds;
`a.intersects (b)` equals `b.intersects (a)`; and when `a.intersects (b)` is true some point
is contained in both rectangles. -/
theorem intersects_is_corner_test (a b : Rect)
    (hax : a.xmin ≤ a.xmax) (hay : a.ymin ≤ a.ymax)
    (hbx : b.xmin ≤ b.xmax) (hby : b.ymin ≤ b.ymax) :
    (a.intersects b = true ↔
        (∃ c ∈ b.corners, a.contains c = true) ∨ (∃ c ∈ a.corners, b.contains c = true))
      ∧ (a.contains ⟨b.xmax, b.ymax⟩ = true →
          a.contains ⟨b.xmin, b.ymax⟩ = true ∨ a.contains ⟨b.xmax, b.ymin⟩ = true ∨
            b.contains ⟨a.xmin, a.ymin⟩ = true)
      ∧ a.intersects b = b.intersects a
      ∧ (a.intersects b = true → ∃ p, a.contains p = true ∧ b.contains p = true) := by
  refine ⟨intersects_iff_corners a b hbx hby, omitted_corner_covered a b hbx hby, ?_, ?_⟩
  · rw [Bool.eq_iff_iff, intersects_iff_corners a b hbx hby,
      intersects_iff_corners b a hax hay]
    exact or_comm
  · intro h
    rcases (intersects_iff_corners a b hbx hby).1 h with ⟨c, hc, hac⟩ | ⟨c, hc, hbc⟩
    · exact ⟨c, hac, corners_contained b hbx hby c hc⟩
    · exact ⟨c, corners_contained a hax hay c hc, hbc⟩

/-- The theorem of C20 at the rectangles [0,2] × [0,2] and [1,3] × [1,3]. -/
theorem intersects_is_corner_test_witness :
    Rect.xmin ⟨Point.ofRat 0 0, Point.ofRat 2 2⟩ ≤ Rect.xmax ⟨Point.ofRat 0 0, Point.ofRat 2 2⟩
      ∧ Rect.ymin ⟨Point.ofRat 0 0, Point.ofRat 2 2⟩
          ≤ Rect.ymax ⟨Point.ofRat 0 0, Point.ofRat 2 2⟩
      ∧ Rect.xmin ⟨Point.ofRat 1 1, Point.ofRat 3 3⟩
          ≤ Rect.xmax ⟨Point.ofRat 1 1, Point.ofRat 3 3⟩
      ∧ Rect.ymin ⟨Point.ofRat 1 1, Point.ofRat 3 3⟩
          ≤ Rect.ymax ⟨Point.ofRat 1 1, Point.ofRat 3 3⟩
      ∧ Rect.intersects ⟨Point.ofRat 0 0, Point.ofRat 2 2⟩ ⟨Point.ofRat 1 1, Point.ofRat 3 3⟩
          = Rect.intersects ⟨Point.ofRat 1 1, Point.ofRat 3 3⟩
              ⟨Point.ofRat 0 0, Point.ofRat 2 2⟩ :=
  ⟨by decide, by decide, by decide, by decide,
    (intersects_is_corner_test ⟨Point.ofRat 0 0, Point.ofRat 2 2⟩
      ⟨Point.ofRat 1 1, Point.ofRat 3 3⟩ (by decide) (by decide) (by decide) (by decide)).2.2.1⟩

end TwoDTree
